import Mathlib

/-!
The lovedos bitmap font (src/font.c): embedding and verified properties.

Shallow embedding of `font.c`.

Conventions of the embedding
* A C `int` has 32 bits. Its values are Lean integers in the range of `inInt`,
  and every `int` operation that can leave that range (the increments of the
  counters, the sums and products of the measurement, the cursor updates of
  the drawing, the conversion of a Lua integer) gives the result reduced
  modulo 2^32 by `wrap32`, as the compiled code does.
* A string (`const char *`) is the list of the `char` values stored at the
  pointer. Every loop of `font.c` tests `*p` and stops at the first NUL, so the
  loops below stop at the first `0` of the list or at its end (the terminator
  that follows every C and Lua string).
* Plain `char` is a signed 8-bit type for the compiler this program targets
  (gcc for i386 DOS): `charOfByte` gives the value of `*p` for a stored byte.
* Image dimensions are sizes of an allocated pixel buffer: natural numbers.
* `font.h`, `image.h`, `image.c` and `font_embedded.c` are not among the
  sources: the image library (`image_blit`, `IMAGE_COLOR`) and the embedded
  bitmap (`font_width`, `font_height`, `font_data`) are parameters.
-/

namespace LoveDos

/-! ## Data model -/

/-- The struct `image_t`, restricted to the members that `font.c` touches: the
colour buffer, the mask buffer and the dimensions. -/
structure image_t where
  data : List Nat
  mask : List Nat
  width : Nat
  height : Nat
deriving DecidableEq

/-- The struct `font_t`: the glyph image and the two spacing members. -/
structure font_t where
  image : image_t
  charSpacing : Int
  lineSpacing : Int
deriving DecidableEq

/-- The range of a C `int`: 32 bits, two's complement. -/
@[reducible] def inInt (x : Int) : Prop := -2147483648 ≤ x ∧ x < 2147483648

/-- The value a C `int` holds for the exact result `x` of an operation: `x`
reduced modulo 2^32 to the range of `int`. -/
def wrap32 (x : Int) : Int := (x + 2147483648) % 4294967296 - 2147483648

/-- The C expression `(size / 16) + spacing`, the `int` sum of a cell size of the
image and a spacing member. The data model puts no bound on the size of an
image: a cell size beyond the range of `int`, which no image of the program
has, is added exactly. -/
def cellPlusSpacing (cell spacing : Int) : Int :=
  if inInt cell then wrap32 (cell + spacing) else cell + spacing

/-- Value of `*p` (a plain, signed `char`) for a byte stored in a string. -/
def charOfByte (b : Nat) : Int :=
  if b % 256 < 128 then ((b % 256 : Nat) : Int) else ((b % 256 : Nat) : Int) - 256

/-- The text a `const char *` denotes: the chars before the first NUL. -/
def cstr (s : List Int) : List Int :=
  s.takeWhile (fun c => decide (c ≠ 0))

/-! ## Measurement (`l_font_getDimensions`, `l_font_getWidth`, `l_font_getHeight`) -/

/-- The `while (*p)` loop of `l_font_getDimensions` over the locals
`count`, `max`, `lines`. -/
def getDimensionsLoop : List Int → Int → Int → Int → Int × Int × Int
  | [], count, max, lines => (count, max, lines)
  | c :: p, count, max, lines =>
    if c = 0 then (count, max, lines)
    else if c = 10 then
      getDimensionsLoop p 0 (if count > max then count else max) (wrap32 (lines + 1))
    else
      getDimensionsLoop p (wrap32 (count + 1)) max lines

/-- `l_font_getDimensions`: the two integers pushed to Lua, `(width, height)`. -/
def l_font_getDimensions (self : font_t) (text : List Int) : Int × Int :=
  let charWidth : Int :=
    cellPlusSpacing ((self.image.width / 16 : Nat) : Int) self.charSpacing
  let charHeight : Int :=
    cellPlusSpacing ((self.image.height / 16 : Nat) : Int) self.lineSpacing
  match getDimensionsLoop text 0 0 1 with
  | (count, max, lines) =>
    let max := if count > max then count else max
    (wrap32 (max * charWidth), wrap32 (lines * charHeight))

/-- The `while (*p)` loop of `l_font_getWidth` over the locals `count`, `max`. -/
def getWidthLoop : List Int → Int → Int → Int × Int
  | [], count, max => (count, max)
  | c :: p, count, max =>
    if c = 0 then (count, max)
    else if c = 10 then getWidthLoop p 0 (if count > max then count else max)
    else getWidthLoop p (wrap32 (count + 1)) max

/-- `l_font_getWidth`; `none` is an absent or nil second argument. -/
def l_font_getWidth (self : font_t) (text : Option (List Int)) : Int :=
  let charWidth : Int :=
    cellPlusSpacing ((self.image.width / 16 : Nat) : Int) self.charSpacing
  match text with
  | none => charWidth
  | some s =>
    match getWidthLoop s 0 0 with
    | (count, max) =>
      let max := if count > max then count else max
      wrap32 (max * charWidth)

/-- The `while (*p)` loop of `l_font_getHeight` over the local `lines`. -/
def getHeightLoop : List Int → Int → Int
  | [], lines => lines
  | c :: p, lines =>
    if c = 0 then lines
    else if c = 10 then getHeightLoop p (wrap32 (lines + 1))
    else getHeightLoop p lines

/-- `l_font_getHeight`; `none` is an absent or nil second argument. -/
def l_font_getHeight (self : font_t) (text : Option (List Int)) : Int :=
  let charHeight : Int :=
    cellPlusSpacing ((self.image.height / 16 : Nat) : Int) self.lineSpacing
  match text with
  | none => charHeight
  | some s => wrap32 (getHeightLoop s 1 * charHeight)

/-- `l_font_setLineSpacing`: the font after the call with the Lua integer `x`,
which `int x = luaL_checkinteger(L, 2)` converts to `int`. -/
def l_font_setLineSpacing (self : font_t) (x : Int) : font_t :=
  { self with lineSpacing := wrap32 x }

/-- `l_font_setCharSpacing`: the font after the call with the Lua integer `x`,
which `int x = luaL_checkinteger(L, 2)` converts to `int`. -/
def l_font_setCharSpacing (self : font_t) (x : Int) : font_t :=
  { self with charSpacing := wrap32 x }

/-! ## Drawing (`font_blit`) -/

/-- The integer arguments of one `image_blit` call, in the order of the C call:
`bufw, bufh` (destination size), `x, y` (destination position), `sx, sy, sw, sh`
(source rectangle). -/
structure BlitCall where
  bufw : Int
  bufh : Int
  x : Int
  y : Int
  sx : Int
  sy : Int
  sw : Int
  sh : Int
deriving DecidableEq

/-- The program state `font_blit` runs in: the two globals `image_blendMode` and
`image_flip` of the image library, and everything else `image_blit` may read or
write (the destination buffer among it) as `mem`. -/
structure State (σ : Type) where
  image_blendMode : Int
  image_flip : Int
  mem : σ

/-- The part of the image library `font_blit` uses: the constant `IMAGE_COLOR`
and the function `image_blit`, which gets the source image and the integer
arguments and may change the whole state. -/
structure ImageLib (σ : Type) where
  IMAGE_COLOR : Int
  image_blit : image_t → BlitCall → State σ → State σ

/-- The `while (*p)` loop of `font_blit` over the locals `x`, `y` and the
program state. C division and remainder truncate towards zero; the cursor
updates `x += cws` and `y += chs` are `int` sums. -/
def fontBlitLoop {σ : Type} (lib : ImageLib σ) (self : font_t)
    (bufw bufh dx cw ch cws chs : Int) : List Int → Int → Int → State σ → State σ
  | [], _, _, st => st
  | c :: p, x, y, st =>
    if c = 0 then st
    else if c = 10 then
      fontBlitLoop lib self bufw bufh dx cw ch cws chs p dx (wrap32 (y + chs)) st
    else
      fontBlitLoop lib self bufw bufh dx cw ch cws chs p (wrap32 (x + cws)) y
        (if c ≠ 32 then
          lib.image_blit self.image
            ⟨bufw, bufh, x, y, cw * Int.tmod c 16, ch * Int.tdiv c 16, cw, ch⟩ st
        else st)

/-- The function `font_blit`: save the two globals, set them, run the loop,
restore them. -/
def font_blit {σ : Type} (lib : ImageLib σ) (self : font_t) (bufw bufh : Int)
    (str : List Int) (dx dy : Int) (st : State σ) : State σ :=
  let cw : Int := ((self.image.width / 16 : Nat) : Int)
  let ch : Int := ((self.image.height / 16 : Nat) : Int)
  let cws : Int := cellPlusSpacing cw self.charSpacing
  let chs : Int := cellPlusSpacing ch self.lineSpacing
  let oldBlendMode := st.image_blendMode
  let oldFlip := st.image_flip
  let st1 : State σ := { st with image_blendMode := lib.IMAGE_COLOR }
  let st2 : State σ := { st1 with image_flip := 0 }
  let st3 := fontBlitLoop lib self bufw bufh dx cw ch cws chs str dx dy st2
  let st4 : State σ := { st3 with image_blendMode := oldBlendMode }
  { st4 with image_flip := oldFlip }

/-- One observed `image_blit` call: the values of the two globals when the call
is made, the source image and the integer arguments. -/
structure BlitEvent where
  blendMode : Int
  flip : Int
  image : image_t
  call : BlitCall
deriving DecidableEq

/-- An image library whose `image_blit` only appends the call to a log. -/
def recorder (IMAGE_COLOR : Int) : ImageLib (List BlitEvent) where
  IMAGE_COLOR := IMAGE_COLOR
  image_blit := fun img a st =>
    { st with mem := st.mem ++ [⟨st.image_blendMode, st.image_flip, img, a⟩] }

/-- The `image_blit` calls `font_blit` issues, in order, when started with the
globals holding `blend` and `flip`. -/
def font_blit_events (IMAGE_COLOR blend flip : Int) (self : font_t) (bufw bufh : Int)
    (str : List Int) (dx dy : Int) : List BlitEvent :=
  (font_blit (recorder IMAGE_COLOR) self bufw bufh str dx dy ⟨blend, flip, []⟩).mem

/-- The integer arguments of the `image_blit` calls `font_blit` issues, in order. -/
def font_blit_calls (self : font_t) (bufw bufh : Int) (str : List Int) (dx dy : Int) :
    List BlitCall :=
  (font_blit_events 0 0 0 self bufw bufh str dx dy).map BlitEvent.call

/-- An image library that behaves as `lib` on the program state and, as ghost
state, logs every `image_blit` call with the values the two globals hold when
the call is made. -/
def instrument {σ : Type} (lib : ImageLib σ) : ImageLib (σ × List BlitEvent) where
  IMAGE_COLOR := lib.IMAGE_COLOR
  image_blit := fun img a st =>
    ⟨(lib.image_blit img a ⟨st.image_blendMode, st.image_flip, st.mem.1⟩).image_blendMode,
     (lib.image_blit img a ⟨st.image_blendMode, st.image_flip, st.mem.1⟩).image_flip,
     ((lib.image_blit img a ⟨st.image_blendMode, st.image_flip, st.mem.1⟩).mem,
      st.mem.2 ++ [⟨st.image_blendMode, st.image_flip, img, a⟩])⟩

/-! ## Construction from a file (`font_init`) -/

/-- The font after `memset(self, 0, sizeof(*self))`: null buffers, zero
dimensions, zero spacing. -/
def zeroFont : font_t := ⟨⟨[], [], 0, 0⟩, 0, 0⟩

/-- The function `font_init`. The image loader `image_init` of `image.c` is a
parameter: from the image it is handed and the file name it gives the image it
leaves and the error string it returns (`none` is `NULL`). The result is the
font left in `*self` and the returned error string. -/
def font_init (image_init : image_t → List Int → image_t × Option String)
    (filename : List Int) : font_t × Option String :=
  let self0 : font_t := zeroFont
  match image_init self0.image filename with
  | (image, err) =>
    let self1 : font_t := { self0 with image := image }
    match err with
    | some e => (self1, some e)
    | none => (self1, none)

/-! ## The embedded font (`font_initEmbedded`) -/

/-- Modelled from the spec: `image_initBlank` of `image.c`, which is not among the
sources: a blank image of the given size with allocated colour and mask
buffers of `width * height` pixels. -/
def image_initBlank (width height : Nat) : image_t :=
  ⟨List.replicate (width * height) 0, List.replicate (width * height) 0, width, height⟩

/-- State of the decoding loops: the image under construction, and, as ghost
state, the indices written to `image.data` and to `image.mask` and the indices
read from `font_data`, in program order. -/
structure EmbedState where
  image : image_t
  dataWrites : List Nat
  maskWrites : List Nat
  reads : List Nat
deriving DecidableEq

/-- The store `buf[i] = v`; `none` when `i` is outside the buffer. -/
def writeAt (buf : List Nat) (i v : Nat) : Option (List Nat) :=
  if i < buf.length then some (buf.set i v) else none

/-- The inner loop `for (j = 0; j < 8; j++)`, from the current `j`; `p` is the
index into `font_data` the pointer `p` stands at. `none` when an access falls
outside `font_data` or outside a pixel buffer. -/
def embeddedInner (font_data : List Int) (p i : Nat) (j : Nat) (st : EmbedState) :
    Option EmbedState :=
  if j < 8 then
    match font_data[p]? with
    | none => none
    | some c =>
      let res : Int := Int.land (c >>> j) 1
      match writeAt st.image.data (i + j) (if res ≠ 0 then 0xf else 0x00) with
      | none => none
      | some data =>
        match writeAt st.image.mask (i + j) (if res ≠ 0 then 0x0 else 0xff) with
        | none => none
        | some mask =>
          embeddedInner font_data p i (j + 1)
            { image := { st.image with data := data, mask := mask }
              dataWrites := st.dataWrites ++ [i + j]
              maskWrites := st.maskWrites ++ [i + j]
              reads := st.reads ++ [p] }
  else some st
termination_by 8 - j

/-- The outer loop `for (i = 0; i < font_width * font_height; i += 8)`, from the
current `i`, with `p` advanced once per round. -/
def embeddedOuter (font_width font_height : Nat) (font_data : List Int) (i p : Nat)
    (st : EmbedState) : Option EmbedState :=
  if i < font_width * font_height then
    match embeddedInner font_data p i 0 st with
    | none => none
    | some st1 => embeddedOuter font_width font_height font_data (i + 8) (p + 1) st1
  else some st
termination_by font_width * font_height - i

/-- The decoding of `font_initEmbedded` with its ghost state. -/
def font_initEmbedded_run (font_width font_height : Nat) (font_data : List Int) :
    Option EmbedState :=
  embeddedOuter font_width font_height font_data 0 0
    ⟨image_initBlank font_width font_height, [], [], []⟩

/-- The function `font_initEmbedded` for the embedded bitmap `font_width`,
`font_height`, `font_data`: the font it leaves in `*self` and the returned error
string (`none` is `NULL`). The outer `none` is an execution with an
out-of-bounds access. -/
def font_initEmbedded (font_width font_height : Nat) (font_data : List Int) :
    Option (font_t × Option String) :=
  (font_initEmbedded_run font_width font_height font_data).map
    (fun st => (⟨st.image, 0, 0⟩, none))

/-! ## Words of the specification used on the right-hand side of the claims -/

/-- Cell width of the atlas, `image.width / 16`. -/
def cellWidth (self : font_t) : Int := ((self.image.width / 16 : Nat) : Int)

/-- Cell height of the atlas, `image.height / 16`. -/
def cellHeight (self : font_t) : Int := ((self.image.height / 16 : Nat) : Int)

/-- The newline-separated lines of a text. -/
def textLines (s : List Int) : List (List Int) := s.splitOn 10

/-- The largest number of bytes on any line of the text. -/
def maxLineCharCount (s : List Int) : Nat :=
  ((textLines s).map List.length).foldr max 0

/-- The number of lines: one more than the number of newline bytes. -/
def lineCount (s : List Int) : Nat := 1 + s.count 10

/-- The bytes of a text for which a glyph is drawn: all but newline and space. -/
def glyphBytes (s : List Int) : List Int :=
  s.filter (fun c => decide (c ≠ 10 ∧ c ≠ 32))

/-- The number of bytes between the last newline of `s` (or its start) and its end. -/
def bytesSinceNewline (s : List Int) : Nat :=
  (s.reverse.takeWhile (fun c => decide (c ≠ 10))).length

/-- The byte (0..255) stored for a `char` value. -/
def byteOfChar (c : Int) : Nat := (c % 256).toNat

/-- The colour written for a decoded bit. -/
def glyphColor (bit : Bool) : Nat := if bit then 0xf else 0x00

/-- The mask written for a decoded bit. -/
def glyphMask (bit : Bool) : Nat := if bit then 0x00 else 0xff

/-- The largest element of a list of integers (`0` for the empty list). -/
def largest : List Int → Int
  | [] => 0
  | [x] => x
  | x :: y :: l => max x (largest (y :: l))

/-- The pixel width of every line: bytes on the line times the advance. -/
def lineWidths (self : font_t) (s : List Int) : List Int :=
  (textLines s).map (fun l => (l.length : Int) * (cellWidth self + self.charSpacing))

/-! ## Auxiliary functions of the proofs -/

/-- The measuring loop of `l_font_getDimensions` with counters that do not wrap. -/
def dimLoopZ : List Int → Int → Int → Int → Int × Int × Int
  | [], count, max, lines => (count, max, lines)
  | c :: p, count, max, lines =>
    if c = 0 then (count, max, lines)
    else if c = 10 then dimLoopZ p 0 (if count > max then count else max) (lines + 1)
    else dimLoopZ p (count + 1) max lines

/-- The loop of `l_font_getWidth` with a counter that does not wrap. -/
def widthLoopZ : List Int → Int → Int → Int × Int
  | [], count, max => (count, max)
  | c :: p, count, max =>
    if c = 0 then (count, max)
    else if c = 10 then widthLoopZ p 0 (if count > max then count else max)
    else widthLoopZ p (count + 1) max

/-- The loop of `l_font_getHeight` with a counter that does not wrap. -/
def heightLoopZ : List Int → Int → Int
  | [], lines => lines
  | c :: p, lines =>
    if c = 0 then lines
    else if c = 10 then heightLoopZ p (lines + 1)
    else heightLoopZ p lines

/-- Largest line length when `count` bytes of the first line were already seen. -/
def linesMax (count : Int) : List (List Int) → Int
  | [] => count
  | l :: rest => max (count + (l.length : Int)) (((rest.map List.length).foldr max 0 : Nat) : Int)

/-- The arguments of the `image_blit` calls of the drawing loop, from a cursor. -/
def callsFrom (bufw bufh dx cw ch cws chs : Int) : List Int → Int → Int → List BlitCall
  | [], _, _ => []
  | c :: p, x, y =>
    if c = 0 then []
    else if c = 10 then callsFrom bufw bufh dx cw ch cws chs p dx (wrap32 (y + chs))
    else
      (if c ≠ 32 then
        [(⟨bufw, bufh, x, y, cw * Int.tmod c 16, ch * Int.tdiv c 16, cw, ch⟩ : BlitCall)]
      else []) ++ callsFrom bufw bufh dx cw ch cws chs p (wrap32 (x + cws)) y

/-- One step of the cursor of the drawing loop. -/
def cursorStep (dx cws chs : Int) (xy : Int × Int) (c : Int) : Int × Int :=
  if c = 10 then (dx, wrap32 (xy.2 + chs)) else (wrap32 (xy.1 + cws), xy.2)


/-! ## Lemmas on `int` arithmetic -/

theorem wrap32_of_inInt (x : Int) (h : inInt x) : wrap32 x = x := by
  unfold inInt at h
  unfold wrap32
  omega

theorem wrap32_inInt (x : Int) : inInt (wrap32 x) := by
  unfold inInt wrap32
  omega

theorem wrap32_spec (x : Int) : ∃ t : Int, wrap32 x = x + 4294967296 * t := by
  refine ⟨-((x + 2147483648) / 4294967296), ?_⟩
  unfold wrap32
  omega

theorem wrap32_congr (a b t : Int) (h : a = b + 4294967296 * t) : wrap32 a = wrap32 b := by
  unfold wrap32
  rw [h]
  have : b + 4294967296 * t + 2147483648 = b + 2147483648 + 4294967296 * t := by ring
  rw [this, Int.add_mul_emod_self_left]

theorem wrap32_add_wrap32_left (a b : Int) : wrap32 (wrap32 a + b) = wrap32 (a + b) := by
  obtain ⟨t, ht⟩ := wrap32_spec a
  exact wrap32_congr _ _ t (by rw [ht]; ring)

theorem wrap32_mul_wrap32 (m a : Int) : wrap32 (m * wrap32 a) = wrap32 (m * a) := by
  obtain ⟨t, ht⟩ := wrap32_spec a
  exact wrap32_congr _ _ (m * t) (by rw [ht]; ring)

theorem cellPlusSpacing_spec (c s : Int) :
    ∃ t : Int, cellPlusSpacing c s = c + s + 4294967296 * t := by
  unfold cellPlusSpacing
  split
  · exact wrap32_spec (c + s)
  · exact ⟨0, by ring⟩

theorem cellPlusSpacing_zero (c : Int) : cellPlusSpacing c 0 = c := by
  unfold cellPlusSpacing
  split
  · rw [Int.add_zero]; exact wrap32_of_inInt c (by assumption)
  · exact Int.add_zero c

theorem cellPlusSpacing_of_inInt (c s : Int) (h : inInt (c + s)) :
    cellPlusSpacing c s = c + s := by
  unfold cellPlusSpacing
  split
  · exact wrap32_of_inInt _ h
  · rfl

theorem wrap32_mul_cellPlusSpacing (m c s : Int) :
    wrap32 (m * cellPlusSpacing c s) = wrap32 (m * (c + s)) := by
  obtain ⟨t, ht⟩ := cellPlusSpacing_spec c s
  exact wrap32_congr _ _ (m * t) (by rw [ht]; ring)

theorem wrap32_add_mul_cellPlusSpacing (x m c s : Int) :
    wrap32 (x + m * cellPlusSpacing c s) = wrap32 (x + m * (c + s)) := by
  obtain ⟨t, ht⟩ := cellPlusSpacing_spec c s
  exact wrap32_congr _ _ (m * t) (by rw [ht]; ring)

/-- A product within the range of `int` whose first factor is at least 1 has its
second factor within the range. -/
theorem inInt_of_mul (m a : Int) (hm : 1 ≤ m) (h : inInt (m * a)) : inInt a := by
  unfold inInt at h ⊢
  obtain ⟨h1, h2⟩ := h
  constructor
  · by_contra hlt
    have : m * a ≤ 1 * a := by
      have ha : a ≤ 0 := by omega
      exact Int.mul_le_mul_of_nonpos_right hm ha
    omega
  · by_contra hge
    have : 1 * a ≤ m * a := by
      have ha : 0 ≤ a := by omega
      exact Int.mul_le_mul_of_nonneg_right hm ha
    omega

/-- A product within the range of `int` stays within it when its first factor is
replaced by a smaller one that is not negative. -/
theorem inInt_mul_of_le (m n a : Int) (hm : 0 ≤ m) (hmn : m ≤ n) (h : inInt (n * a)) :
    inInt (m * a) := by
  unfold inInt at h ⊢
  obtain ⟨h1, h2⟩ := h
  rcases le_total 0 a with ha | ha
  · have k1 : 0 ≤ m * a := mul_nonneg hm ha
    have k2 : m * a ≤ n * a := mul_le_mul_of_nonneg_right hmn ha
    constructor <;> omega
  · have k1 : m * a ≤ 0 := mul_nonpos_of_nonneg_of_nonpos hm ha
    have k2 : n * a ≤ m * a := mul_le_mul_of_nonpos_right hmn ha
    constructor <;> omega

/-! ## Lemmas on the measurement loops -/

theorem ite_gt_eq_max (a b : Int) : (if a > b then a else b) = max a b := by
  rcases le_total a b with h | h
  · rw [max_eq_right h]; split <;> omega
  · rw [max_eq_left h]; split <;> omega

theorem cstr_nil : cstr [] = [] := rfl

theorem cstr_cons_zero (p : List Int) : cstr (0 :: p) = [] := by
  simp [cstr]

theorem cstr_cons_ne (c : Int) (p : List Int) (h : c ≠ 0) : cstr (c :: p) = c :: cstr p := by
  simp [cstr, List.takeWhile_cons, h]

theorem cstr_nulfree (s : List Int) : ∀ c ∈ cstr s, c ≠ 0 := by
  intro c hc
  have := List.mem_takeWhile_imp hc
  simpa using this

theorem cstr_of_nulfree (s : List Int) (h : ∀ c ∈ s, c ≠ 0) : cstr s = s := by
  induction s with
  | nil => rfl
  | cons c p ih =>
    have hc : c ≠ 0 := h c (List.mem_cons_self c p)
    rw [cstr_cons_ne c p hc, ih (fun d hd => h d (List.mem_cons_of_mem c hd))]

theorem getDimensionsLoop_cstr (s : List Int) (count mx lines : Int) :
    getDimensionsLoop s count mx lines = getDimensionsLoop (cstr s) count mx lines := by
  induction s generalizing count mx lines with
  | nil => rfl
  | cons c p ih =>
    by_cases hc : c = 0
    · subst hc; rw [cstr_cons_zero]; simp [getDimensionsLoop]
    · rw [cstr_cons_ne c p hc]
      simp only [getDimensionsLoop, hc, if_false]
      split
      · exact ih _ _ _
      · exact ih _ _ _

/-- The three measurement loops run in lockstep. -/
theorem getDimensionsLoop_eq (s : List Int) (count mx lines : Int) :
    getDimensionsLoop s count mx lines
      = ((getWidthLoop s count mx).1, (getWidthLoop s count mx).2, getHeightLoop s lines) := by
  induction s generalizing count mx lines with
  | nil => rfl
  | cons c p ih =>
    simp only [getDimensionsLoop, getWidthLoop, getHeightLoop]
    split
    · rfl
    · split
      · exact ih _ _ _
      · exact ih _ _ _

/-- The three loops without wrap run in lockstep. -/
theorem dimLoopZ_eq (s : List Int) (count mx lines : Int) :
    dimLoopZ s count mx lines
      = ((widthLoopZ s count mx).1, (widthLoopZ s count mx).2, heightLoopZ s lines) := by
  induction s generalizing count mx lines with
  | nil => rfl
  | cons c p ih =>
    simp only [dimLoopZ, widthLoopZ, heightLoopZ]
    split
    · rfl
    · split
      · exact ih _ _ _
      · exact ih _ _ _

theorem linesMax_zero (ls : List (List Int)) :
    linesMax 0 ls = (((ls.map List.length).foldr max 0 : Nat) : Int) := by
  cases ls with
  | nil => rfl
  | cons l rest => simp [linesMax]

theorem textLines_nil : textLines [] = [[]] := rfl

theorem textLines_cons_newline (p : List Int) : textLines (10 :: p) = [] :: textLines p := by
  simp [textLines, List.splitOn, List.splitOnP_cons]

theorem textLines_cons_ne (c : Int) (p : List Int) (h : c ≠ 10) :
    textLines (c :: p) = (textLines p).modifyHead (List.cons c) := by
  simp [textLines, List.splitOn, List.splitOnP_cons, h]

theorem textLines_ne_nil (p : List Int) : textLines p ≠ [] := by
  simp [textLines, List.splitOn, List.splitOnP_ne_nil]

theorem linesMax_textLines_cons (c : Int) (p : List Int) (h : c ≠ 10) (count : Int) :
    linesMax count (textLines (c :: p)) = linesMax (count + 1) (textLines p) := by
  rw [textLines_cons_ne c p h]
  cases hp : textLines p with
  | nil => exact absurd hp (textLines_ne_nil p)
  | cons l rest =>
    simp only [List.modifyHead, linesMax, List.length_cons]
    push_cast
    ring_nf

/-- Closed form of the width loop without wrap on a NUL-free text. -/
theorem widthLoopZ_closed (s : List Int) (h : ∀ c ∈ s, c ≠ 0) (count mx : Int)
    (hcount : 0 ≤ count) :
    max (widthLoopZ s count mx).1 (widthLoopZ s count mx).2
      = max mx (linesMax count (textLines s)) := by
  induction s generalizing count mx with
  | nil =>
    simp only [widthLoopZ, textLines_nil, linesMax, List.length_nil, List.map_nil,
      List.foldr_nil]
    push_cast
    rw [add_zero, max_eq_left hcount, max_comm]
  | cons c p ih =>
    have hc : c ≠ 0 := h c (List.mem_cons_self c p)
    have hp : ∀ d ∈ p, d ≠ 0 := fun d hd => h d (List.mem_cons_of_mem c hd)
    by_cases hn : c = 10
    · subst hn
      simp only [widthLoopZ, hc, if_false, if_true]
      rw [ih hp 0 _ (le_refl 0), ite_gt_eq_max, textLines_cons_newline, linesMax_zero]
      simp only [linesMax, List.length_nil]
      push_cast
      rw [add_zero, max_comm count mx, max_assoc]
    · simp only [widthLoopZ, hc, hn, if_false]
      rw [ih hp (count + 1) mx (by omega), linesMax_textLines_cons c p hn]

/-- Closed form of the height loop without wrap on a NUL-free text. -/
theorem heightLoopZ_closed (s : List Int) (h : ∀ c ∈ s, c ≠ 0) (lines : Int) :
    heightLoopZ s lines = lines + (s.count 10 : Nat) := by
  induction s generalizing lines with
  | nil => simp [heightLoopZ]
  | cons c p ih =>
    have hc : c ≠ 0 := h c (List.mem_cons_self c p)
    have hp : ∀ d ∈ p, d ≠ 0 := fun d hd => h d (List.mem_cons_of_mem c hd)
    by_cases hn : c = 10
    · subst hn
      simp only [heightLoopZ, hc, if_false, if_true]
      rw [ih hp, List.count_cons_self]
      push_cast
      ring
    · simp only [heightLoopZ, hc, hn, if_false]
      rw [ih hp, List.count_cons_of_ne (fun e => hn e.symm)]

/-- The counters of the measuring loop do not wrap on a text short enough. -/
theorem getDimensionsLoop_eq_dimLoopZ (s : List Int) (count mx lines : Int)
    (hc : 0 ≤ count) (hl : 0 ≤ lines) (hcs : count + (s.length : Int) < 2147483648)
    (hls : lines + (s.length : Int) < 2147483648) :
    getDimensionsLoop s count mx lines = dimLoopZ s count mx lines := by
  induction s generalizing count mx lines with
  | nil => rfl
  | cons c p ih =>
    simp only [List.length_cons] at hcs hls
    push_cast at hcs hls
    simp only [getDimensionsLoop, dimLoopZ]
    split
    · rfl
    · split
      · rw [wrap32_of_inInt (lines + 1) ⟨by omega, by omega⟩]
        exact ih 0 _ (lines + 1) (le_refl 0) (by omega) (by omega) (by omega)
      · rw [wrap32_of_inInt (count + 1) ⟨by omega, by omega⟩]
        exact ih (count + 1) mx lines (by omega) hl (by omega) (by omega)

theorem cstr_length_le (s : List Int) : (cstr s).length ≤ s.length :=
  (List.takeWhile_sublist _).length_le

/-- The counters of `l_font_getDimensions` on a string whose text is shorter than
2^31 - 1 bytes: the largest line length and the line count. -/
theorem getDimensionsLoop_closed (s : List Int) (hlen : (cstr s).length < 2147483647) :
    max (getDimensionsLoop s 0 0 1).1 (getDimensionsLoop s 0 0 1).2.1
        = (maxLineCharCount (cstr s) : Int)
    ∧ (getDimensionsLoop s 0 0 1).2.2 = (lineCount (cstr s) : Int) := by
  have hw := widthLoopZ_closed (cstr s) (cstr_nulfree s) 0 0 (le_refl 0)
  have hh := heightLoopZ_closed (cstr s) (cstr_nulfree s) 1
  rw [linesMax_zero] at hw
  rw [getDimensionsLoop_cstr,
    getDimensionsLoop_eq_dimLoopZ (cstr s) 0 0 1 (le_refl 0) (by omega) (by omega) (by omega),
    dimLoopZ_eq]
  constructor
  · simp only [hw, maxLineCharCount]
    simp
  · simp only [hh, lineCount]
    push_cast
    ring

/-- Closed form of `l_font_getDimensions` on every string whose text (the bytes
before the first NUL) is shorter than 2^31 - 1 bytes: the exact products reduced
to `int`. -/
theorem l_font_getDimensions_closed (self : font_t) (s : List Int)
    (hlen : (cstr s).length < 2147483647) :
    l_font_getDimensions self s
      = (wrap32 ((maxLineCharCount (cstr s) : Int) * (cellWidth self + self.charSpacing)),
         wrap32 ((lineCount (cstr s) : Int) * (cellHeight self + self.lineSpacing))) := by
  obtain ⟨h1, h2⟩ := getDimensionsLoop_closed s hlen
  unfold l_font_getDimensions
  simp only [ite_gt_eq_max, h1, h2, wrap32_mul_cellPlusSpacing, cellWidth, cellHeight]

/-- Closed form of `l_font_getDimensions` when the two exact products are within
the range of `int`. -/
theorem l_font_getDimensions_exact (self : font_t) (s : List Int)
    (hlen : (cstr s).length < 2147483647)
    (hW : inInt ((maxLineCharCount (cstr s) : Int) * (cellWidth self + self.charSpacing)))
    (hH : inInt ((lineCount (cstr s) : Int) * (cellHeight self + self.lineSpacing))) :
    l_font_getDimensions self s
      = ((maxLineCharCount (cstr s) : Int) * (cellWidth self + self.charSpacing),
         (lineCount (cstr s) : Int) * (cellHeight self + self.lineSpacing)) := by
  rw [l_font_getDimensions_closed self s hlen, wrap32_of_inInt _ hW, wrap32_of_inInt _ hH]

/-! ## Lemmas on the drawing loop -/

/-- The drawing loop does nothing but issue the calls of `callsFrom`, in order,
whatever `image_blit` does. -/
theorem fontBlitLoop_eq_foldl {σ : Type} (lib : ImageLib σ) (self : font_t)
    (bufw bufh dx cw ch cws chs : Int) (s : List Int) (x y : Int) (st : State σ) :
    fontBlitLoop lib self bufw bufh dx cw ch cws chs s x y st
      = (callsFrom bufw bufh dx cw ch cws chs s x y).foldl
          (fun t a => lib.image_blit self.image a t) st := by
  induction s generalizing x y st with
  | nil => rfl
  | cons c p ih =>
    simp only [fontBlitLoop, callsFrom]
    split
    · rfl
    · split
      · exact ih _ _ _
      · rw [ih, List.foldl_append]
        split <;> rfl

theorem recorder_foldl (IC : Int) (img : image_t) (calls : List BlitCall)
    (b f : Int) (log : List BlitEvent) :
    calls.foldl (fun t a => (recorder IC).image_blit img a t) ⟨b, f, log⟩
      = ⟨b, f, log ++ calls.map (fun a => ⟨b, f, img, a⟩)⟩ := by
  induction calls generalizing log with
  | nil => simp
  | cons a rest ih =>
    simp only [List.foldl_cons, List.map_cons]
    have : (recorder IC).image_blit img a ⟨b, f, log⟩ = ⟨b, f, log ++ [⟨b, f, img, a⟩]⟩ := rfl
    rw [this, ih]
    simp

/-- The observed calls of `font_blit`: those of `callsFrom` from the origin, each
made with the two globals holding `IMAGE_COLOR` and `0`. -/
theorem font_blit_events_eq (IC blend flip : Int) (self : font_t) (bufw bufh : Int)
    (str : List Int) (dx dy : Int) :
    font_blit_events IC blend flip self bufw bufh str dx dy
      = (callsFrom bufw bufh dx (cellWidth self) (cellHeight self)
          (cellPlusSpacing (cellWidth self) self.charSpacing)
          (cellPlusSpacing (cellHeight self) self.lineSpacing)
          str dx dy).map (fun a => ⟨IC, 0, self.image, a⟩) := by
  simp only [font_blit_events, font_blit, fontBlitLoop_eq_foldl, cellWidth, cellHeight]
  rw [show (recorder IC).IMAGE_COLOR = IC from rfl, recorder_foldl]
  simp

theorem font_blit_calls_eq (self : font_t) (bufw bufh : Int) (str : List Int) (dx dy : Int) :
    font_blit_calls self bufw bufh str dx dy
      = callsFrom bufw bufh dx (cellWidth self) (cellHeight self)
          (cellPlusSpacing (cellWidth self) self.charSpacing)
          (cellPlusSpacing (cellHeight self) self.lineSpacing)
          str dx dy := by
  simp [font_blit_calls, font_blit_events_eq, Function.comp_def]

theorem callsFrom_append (bufw bufh dx cw ch cws chs : Int) (pre rest : List Int)
    (h : ∀ c ∈ pre, c ≠ 0) (x y : Int) :
    callsFrom bufw bufh dx cw ch cws chs (pre ++ rest) x y
      = callsFrom bufw bufh dx cw ch cws chs pre x y
        ++ callsFrom bufw bufh dx cw ch cws chs rest
            (pre.foldl (cursorStep dx cws chs) (x, y)).1
            (pre.foldl (cursorStep dx cws chs) (x, y)).2 := by
  induction pre generalizing x y with
  | nil => simp [callsFrom]
  | cons c p ih =>
    have hc : c ≠ 0 := h c (List.mem_cons_self c p)
    have hp : ∀ d ∈ p, d ≠ 0 := fun d hd => h d (List.mem_cons_of_mem c hd)
    by_cases hn : c = 10
    · subst hn
      simp only [List.cons_append, callsFrom, hc, if_false, if_true, List.foldl_cons, cursorStep]
      exact ih hp _ _
    · simp only [List.cons_append, callsFrom, hc, hn, if_false, List.foldl_cons, cursorStep,
        List.append_assoc]
      exact congrArg _ (ih hp _ _)

theorem bytesSinceNewline_append_singleton (s : List Int) (c : Int) :
    bytesSinceNewline (s ++ [c]) = if c = 10 then 0 else bytesSinceNewline s + 1 := by
  simp only [bytesSinceNewline, List.reverse_append, List.reverse_singleton,
    List.singleton_append, List.takeWhile_cons]
  by_cases hn : c = 10 <;> simp [hn]

/-- Closed form of the cursor after a text, started at the left margin with
`int` values: the exact position reduced to `int`. -/
theorem cursor_closed (dx cws chs : Int) (pre : List Int) (y : Int)
    (hdx : inInt dx) (hy : inInt y) :
    pre.foldl (cursorStep dx cws chs) (dx, y)
      = (wrap32 (dx + (bytesSinceNewline pre : Int) * cws),
         wrap32 (y + (pre.count 10 : Int) * chs)) := by
  induction pre using List.reverseRecOn with
  | nil => simp [bytesSinceNewline, wrap32_of_inInt dx hdx, wrap32_of_inInt y hy]
  | append_singleton init c ih =>
    rw [List.foldl_append, ih, bytesSinceNewline_append_singleton, List.count_append]
    by_cases hn : c = 10
    · subst hn
      simp only [List.foldl_cons, List.foldl_nil, cursorStep, if_true, List.count_singleton_self]
      rw [wrap32_add_wrap32_left]
      push_cast
      simp only [Prod.mk.injEq]
      constructor
      · rw [zero_mul, add_zero, wrap32_of_inInt dx hdx]
      · congr 1; ring
    · have h10 : ¬ (10 : Int) = c := fun e => hn e.symm
      simp only [List.foldl_cons, List.foldl_nil, cursorStep, hn, if_false, List.count_cons,
        List.count_nil, beq_iff_eq, h10]
      rw [wrap32_add_wrap32_left]
      push_cast
      simp only [Prod.mk.injEq]
      constructor
      · congr 1; ring
      · congr 1
        try ring

theorem callsFrom_length (bufw bufh dx cw ch cws chs : Int) (s : List Int)
    (h : ∀ c ∈ s, c ≠ 0) (x y : Int) :
    (callsFrom bufw bufh dx cw ch cws chs s x y).length = (glyphBytes s).length := by
  induction s generalizing x y with
  | nil => rfl
  | cons c p ih =>
    have hc : c ≠ 0 := h c (List.mem_cons_self c p)
    have hp : ∀ d ∈ p, d ≠ 0 := fun d hd => h d (List.mem_cons_of_mem c hd)
    by_cases hn : c = 10
    · subst hn
      simp only [callsFrom, hc, if_false, if_true, glyphBytes]
      rw [ih hp]
      simp [glyphBytes]
    · by_cases hs : c = 32
      · subst hs
        simp only [callsFrom, hc, hn, if_false, glyphBytes]
        rw [List.length_append, ih hp]
        simp [glyphBytes]
      · simp only [callsFrom, hc, hn, if_false, glyphBytes]
        rw [List.length_append, ih hp]
        simp [glyphBytes, hn, hs]
        omega

/-- The call issued for a drawn byte `c` that follows the NUL-free text `pre`: its
position among the calls, its source rectangle, and its destination as the
cursor the loop has reached. -/
theorem font_blit_call_at_cursor (self : font_t) (bufw bufh : Int) (pre post : List Int)
    (c : Int) (dx dy : Int) (hpre : ∀ d ∈ pre, d ≠ 0) (h0 : c ≠ 0) (h10 : c ≠ 10)
    (h32 : c ≠ 32) :
    (font_blit_calls self bufw bufh (pre ++ c :: post) dx dy)[(glyphBytes pre).length]?
      = some ⟨bufw, bufh,
          (pre.foldl (cursorStep dx (cellPlusSpacing (cellWidth self) self.charSpacing)
            (cellPlusSpacing (cellHeight self) self.lineSpacing)) (dx, dy)).1,
          (pre.foldl (cursorStep dx (cellPlusSpacing (cellWidth self) self.charSpacing)
            (cellPlusSpacing (cellHeight self) self.lineSpacing)) (dx, dy)).2,
          cellWidth self * Int.tmod c 16, cellHeight self * Int.tdiv c 16,
          cellWidth self, cellHeight self⟩ := by
  rw [font_blit_calls_eq, callsFrom_append _ _ _ _ _ _ _ _ _ hpre]
  rw [List.getElem?_append_right (by rw [callsFrom_length _ _ _ _ _ _ _ _ hpre])]
  rw [callsFrom_length _ _ _ _ _ _ _ _ hpre, Nat.sub_self]
  simp [callsFrom, h0, h10, h32]

/-- The call issued for a drawn byte `c` that follows the NUL-free text `pre`, for
an origin of `int` values: its destination is the exact position reduced to
`int`. -/
theorem font_blit_call_at (self : font_t) (bufw bufh : Int) (pre post : List Int) (c : Int)
    (dx dy : Int) (hdx : inInt dx) (hdy : inInt dy) (hpre : ∀ d ∈ pre, d ≠ 0) (h0 : c ≠ 0)
    (h10 : c ≠ 10) (h32 : c ≠ 32) :
    (font_blit_calls self bufw bufh (pre ++ c :: post) dx dy)[(glyphBytes pre).length]?
      = some ⟨bufw, bufh,
          wrap32 (dx + (bytesSinceNewline pre : Int) * (cellWidth self + self.charSpacing)),
          wrap32 (dy + (pre.count 10 : Int) * (cellHeight self + self.lineSpacing)),
          cellWidth self * Int.tmod c 16, cellHeight self * Int.tdiv c 16,
          cellWidth self, cellHeight self⟩ := by
  rw [font_blit_call_at_cursor self bufw bufh pre post c dx dy hpre h0 h10 h32,
    cursor_closed dx _ _ pre dy hdx hdy, wrap32_add_mul_cellPlusSpacing,
    wrap32_add_mul_cellPlusSpacing]

/-! ## Lemmas on the drawn bytes -/

theorem callsFrom_cstr (bufw bufh dx cw ch cws chs : Int) (s : List Int) (x y : Int) :
    callsFrom bufw bufh dx cw ch cws chs s x y
      = callsFrom bufw bufh dx cw ch cws chs (cstr s) x y := by
  induction s generalizing x y with
  | nil => rfl
  | cons c p ih =>
    by_cases hc : c = 0
    · subst hc; rw [cstr_cons_zero]; simp [callsFrom]
    · rw [cstr_cons_ne c p hc]
      simp only [callsFrom, hc, if_false]
      split
      · exact ih _ _
      · exact congrArg _ (ih _ _)

theorem callsFrom_sources (bufw bufh dx cw ch cws chs : Int) (s : List Int)
    (h : ∀ c ∈ s, c ≠ 0) (x y : Int) :
    (callsFrom bufw bufh dx cw ch cws chs s x y).map (fun a => (a.sx, a.sy, a.sw, a.sh))
      = (glyphBytes s).map (fun c => (cw * Int.tmod c 16, ch * Int.tdiv c 16, cw, ch)) := by
  induction s generalizing x y with
  | nil => rfl
  | cons c p ih =>
    have hc : c ≠ 0 := h c (List.mem_cons_self c p)
    have hp : ∀ d ∈ p, d ≠ 0 := fun d hd => h d (List.mem_cons_of_mem c hd)
    by_cases hn : c = 10
    · subst hn
      simp only [callsFrom, hc, if_false, if_true]
      rw [ih hp]
      simp [glyphBytes]
    · by_cases hs : c = 32
      · subst hs
        simp only [callsFrom, hc, hn, if_false, List.map_append]
        rw [ih hp]
        simp [glyphBytes]
      · simp only [callsFrom, hc, hn, if_false, List.map_append]
        rw [ih hp]
        simp [glyphBytes, hn, hs]

theorem glyphBytes_eq_nil (s : List Int) (h : ∀ c ∈ s, c = 10 ∨ c = 32) : glyphBytes s = [] := by
  simp only [glyphBytes, List.filter_eq_nil_iff, decide_eq_true_eq]
  intro c hc hne
  rcases h c hc with e | e
  · exact hne.1 e
  · exact hne.2 e

theorem maxLineCharCount_pos (s : List Int) (c : Int) (hc : c ∈ s) (hn : c ≠ 10) :
    1 ≤ maxLineCharCount s := by
  induction s with
  | nil => exact absurd hc (List.not_mem_nil c)
  | cons d p ih =>
    by_cases hd : d = 10
    · subst hd
      have hcp : c ∈ p := by
        rcases List.mem_cons.mp hc with e | e
        · exact absurd e hn
        · exact e
      have := ih hcp
      simp only [maxLineCharCount, textLines_cons_newline, List.map_cons, List.foldr_cons,
        List.length_nil] at this ⊢
      omega
    · simp only [maxLineCharCount, textLines_cons_ne d p hd]
      cases hp : textLines p with
      | nil => exact absurd hp (textLines_ne_nil p)
      | cons l rest =>
        simp only [List.modifyHead, List.map_cons, List.foldr_cons, List.length_cons]
        omega

theorem glyphBytes_eq_nil_of_no_chars (s : List Int) (h : maxLineCharCount s = 0) :
    glyphBytes s = [] := by
  apply glyphBytes_eq_nil
  intro c hc
  by_cases hn : c = 10
  · exact Or.inl hn
  · have := maxLineCharCount_pos s c hc hn
    omega

/-! ## Measurement bounds the drawing -/

theorem dimLoopZ_mono (s : List Int) (count mx lines : Int) :
    count ≤ max (dimLoopZ s count mx lines).1 (dimLoopZ s count mx lines).2.1
    ∧ mx ≤ max (dimLoopZ s count mx lines).1 (dimLoopZ s count mx lines).2.1
    ∧ lines ≤ (dimLoopZ s count mx lines).2.2 := by
  induction s generalizing count mx lines with
  | nil => exact ⟨le_max_left _ _, le_max_right _ _, le_refl _⟩
  | cons c p ih =>
    simp only [dimLoopZ]
    split
    · exact ⟨le_max_left _ _, le_max_right _ _, le_refl _⟩
    · split
      · rw [ite_gt_eq_max]
        obtain ⟨_, h2, h3⟩ := ih 0 (max count mx) (lines + 1)
        exact ⟨le_trans (le_max_left _ _) h2, le_trans (le_max_right _ _) h2, by omega⟩
      · obtain ⟨h1, h2, h3⟩ := ih (count + 1) mx lines
        exact ⟨by omega, h2, h3⟩

/-- The counters of the loop without wrap on a NUL-free text. -/
theorem dimLoopZ_closed (s : List Int) (h : ∀ c ∈ s, c ≠ 0) :
    max (dimLoopZ s 0 0 1).1 (dimLoopZ s 0 0 1).2.1 = (maxLineCharCount s : Int)
    ∧ (dimLoopZ s 0 0 1).2.2 = (lineCount s : Int) := by
  have hw := widthLoopZ_closed s h 0 0 (le_refl 0)
  have hh := heightLoopZ_closed s h 1
  rw [linesMax_zero] at hw
  rw [dimLoopZ_eq]
  constructor
  · simp only [hw, maxLineCharCount]
    simp
  · simp only [hh, lineCount]
    push_cast
    ring

/-- Joint invariant of the drawing loop and the measuring loop: with the cursor
at column `count` of line `lines`, and the measured box within the range of
`int`, no cursor update wraps and every later call stays inside the box. -/
theorem callsFrom_bounds (bufw bufh dx dy cw ch cws chs : Int) (hcws : 0 ≤ cws)
    (hchs : 0 ≤ chs) (hdx : -2147483648 ≤ dx) (hdy : -2147483648 ≤ dy)
    (s : List Int) (count mx lines x y : Int)
    (hx : x = dx + count * cws) (hy : y + chs = dy + lines * chs)
    (hcount : 0 ≤ count) (hlines : 1 ≤ lines)
    (hX : dx + max (dimLoopZ s count mx lines).1 (dimLoopZ s count mx lines).2.1 * cws
      < 2147483648)
    (hY : dy + (dimLoopZ s count mx lines).2.2 * chs < 2147483648) :
    ∀ a ∈ callsFrom bufw bufh dx cw ch cws chs s x y,
      dx ≤ a.x
      ∧ a.x + cws ≤ dx + max (dimLoopZ s count mx lines).1
          (dimLoopZ s count mx lines).2.1 * cws
      ∧ dy ≤ a.y
      ∧ a.y + chs ≤ dy + (dimLoopZ s count mx lines).2.2 * chs
      ∧ a.sw = cw ∧ a.sh = ch := by
  induction s generalizing count mx lines x y with
  | nil => intro a ha; simp [callsFrom] at ha
  | cons c p ih =>
    intro a ha
    by_cases hc : c = 0
    · simp [callsFrom, hc] at ha
    by_cases hn : c = 10
    · subst hn
      simp only [callsFrom, hc, if_false, if_true] at ha
      simp only [dimLoopZ, hc, if_false, if_true] at hX hY ⊢
      have hmono := dimLoopZ_mono p 0 (if count > mx then count else mx) (lines + 1)
      have k3 : (lines + 1) * chs
          ≤ (dimLoopZ p 0 (if count > mx then count else mx) (lines + 1)).2.2 * chs :=
        mul_le_mul_of_nonneg_right hmono.2.2 hchs
      have k4 : 0 ≤ lines * chs := mul_nonneg (by omega) hchs
      have k5 : (lines + 1) * chs = lines * chs + chs := by ring
      have hwrap : wrap32 (y + chs) = y + chs :=
        wrap32_of_inInt _ ⟨by omega, by omega⟩
      rw [hwrap] at ha
      exact ih 0 _ (lines + 1) dx (y + chs) (by ring) (by rw [hy]; ring) (le_refl 0)
        (by omega) hX hY a ha
    · simp only [callsFrom, hc, hn, if_false, List.mem_append] at ha
      simp only [dimLoopZ, hc, hn, if_false] at hX hY ⊢
      have hmono := dimLoopZ_mono p (count + 1) mx lines
      have k1 : 0 ≤ count * cws := mul_nonneg hcount hcws
      have k2 : (count + 1) * cws ≤
          max (dimLoopZ p (count + 1) mx lines).1 (dimLoopZ p (count + 1) mx lines).2.1 * cws :=
        mul_le_mul_of_nonneg_right hmono.1 hcws
      have k3 : lines * chs ≤ (dimLoopZ p (count + 1) mx lines).2.2 * chs :=
        mul_le_mul_of_nonneg_right hmono.2.2 hchs
      have k4 : 0 ≤ (lines - 1) * chs := mul_nonneg (by omega) hchs
      have k5 : dx + count * cws + cws = dx + (count + 1) * cws := by ring
      have k6 : (lines - 1) * chs = lines * chs - chs := by ring
      rcases ha with ha | ha
      · have hax : a.x = x ∧ a.y = y ∧ a.sw = cw ∧ a.sh = ch := by
          split at ha
          · rw [List.mem_singleton] at ha
            subst ha
            exact ⟨rfl, rfl, rfl, rfl⟩
          · simp at ha
        obtain ⟨e1, e2, e3, e4⟩ := hax
        refine ⟨by rw [e1, hx]; omega, ?_, ?_, ?_, e3, e4⟩
        · rw [e1, hx]; omega
        · rw [e2]; omega
        · rw [e2, hy]; omega
      · have hwrap : wrap32 (x + cws) = x + cws :=
          wrap32_of_inInt _ ⟨by rw [hx]; omega, by rw [hx]; omega⟩
        rw [hwrap] at ha
        exact ih (count + 1) mx lines (x + cws) y (by rw [hx]; ring) hy (by omega) hlines
          hX hY a ha

/-! ## Lemmas on the decoding of the embedded font -/

theorem land_one (x : Int) : Int.land x 1 = x % 2 := by
  cases x with
  | ofNat m =>
    show ((m &&& 1 : Nat) : Int) = (m : Int) % 2
    rw [Nat.and_one_is_mod]
    omega
  | negSucc m =>
    show ((Nat.ldiff 1 m : Nat) : Int) = _
    have : Nat.ldiff 1 m = 1 - m % 2 := by
      apply Nat.eq_of_testBit_eq
      intro k
      rw [Nat.testBit_ldiff]
      cases k with
      | zero =>
        rcases Nat.mod_two_eq_zero_or_one m with h | h <;> simp [Nat.testBit_zero, h]
      | succ k =>
        rcases Nat.mod_two_eq_zero_or_one m with h | h <;> simp [h, Nat.testBit_succ]
    rw [this, Int.negSucc_eq]
    omega

/-- The C expression `(*p >> j) & 1` is bit `j` of the stored byte. -/
theorem shift_and_one_eq_testBit (c : Int) (j : Nat) (hj : j < 8) :
    (Int.land (c >>> j) 1 ≠ 0) ↔ Nat.testBit (byteOfChar c) j = true := by
  rw [land_one, Int.shiftRight_eq_div_pow, Nat.testBit_to_div_mod, byteOfChar]
  simp only [decide_eq_true_eq]
  interval_cases j <;> norm_num <;> omega

theorem decoded_color (c : Int) (j : Nat) (hj : j < 8) :
    (if Int.land (c >>> j) 1 ≠ 0 then 0xf else 0x00)
      = glyphColor (Nat.testBit (byteOfChar c) j) := by
  have hbit := shift_and_one_eq_testBit c j hj
  by_cases hb : Int.land (c >>> j) 1 ≠ 0
  · rw [if_pos hb, hbit.mp hb]; rfl
  · have : Nat.testBit (byteOfChar c) j = false := by
      cases ht : Nat.testBit (byteOfChar c) j with
      | false => rfl
      | true => exact absurd (hbit.mpr ht) hb
    rw [if_neg hb, this]; rfl

theorem decoded_mask (c : Int) (j : Nat) (hj : j < 8) :
    (if Int.land (c >>> j) 1 ≠ 0 then 0x0 else 0xff)
      = glyphMask (Nat.testBit (byteOfChar c) j) := by
  have hbit := shift_and_one_eq_testBit c j hj
  by_cases hb : Int.land (c >>> j) 1 ≠ 0
  · rw [if_pos hb, hbit.mp hb]; rfl
  · have : Nat.testBit (byteOfChar c) j = false := by
      cases ht : Nat.testBit (byteOfChar c) j with
      | false => rfl
      | true => exact absurd (hbit.mpr ht) hb
    rw [if_neg hb, this]; rfl

theorem writeAt_some (buf : List Nat) (i v : Nat) (buf1 : List Nat)
    (h : writeAt buf i v = some buf1) : i < buf.length ∧ buf1 = buf.set i v := by
  unfold writeAt at h
  split at h
  · exact ⟨by assumption, (Option.some.inj h).symm⟩
  · exact absurd h (by simp)

/-- What the inner loop from `j` leaves: pixels `i + j .. i + 7` decoded from the
byte at `p`, every other pixel as before. -/
theorem embeddedInner_spec (font_data : List Int) (p i : Nat) (k : Nat) :
    ∀ (j : Nat) (st st1 : EmbedState), j + k = 8 →
      embeddedInner font_data p i j st = some st1 →
      (∀ n, i + j ≤ n → n < i + 8 → ∃ c, font_data[p]? = some c
          ∧ st1.image.data[n]? = some (glyphColor (Nat.testBit (byteOfChar c) (n - i)))
          ∧ st1.image.mask[n]? = some (glyphMask (Nat.testBit (byteOfChar c) (n - i))))
      ∧ (∀ n, (n < i + j ∨ i + 8 ≤ n) →
          st1.image.data[n]? = st.image.data[n]? ∧ st1.image.mask[n]? = st.image.mask[n]?)
      ∧ st1.image.width = st.image.width ∧ st1.image.height = st.image.height := by
  induction k with
  | zero =>
    intro j st st1 hj h
    have hj8 : j = 8 := by omega
    subst hj8
    unfold embeddedInner at h
    simp only [lt_irrefl, if_false, Option.some.injEq] at h
    subst h
    exact ⟨fun n h1 h2 => absurd h2 (by omega), fun n _ => ⟨rfl, rfl⟩, rfl, rfl⟩
  | succ k ih =>
    intro j st st1 hj h
    have hj8 : j < 8 := by omega
    unfold embeddedInner at h
    rw [if_pos hj8] at h
    split at h
    · exact absurd h (by simp)
    · rename_i c hc
      dsimp only at h
      split at h
      · exact absurd h (by simp)
      · rename_i data hd
        split at h
        · exact absurd h (by simp)
        · rename_i mask hm
          rw [decoded_color c j hj8] at hd
          rw [decoded_mask c j hj8] at hm
          obtain ⟨hdl, hde⟩ := writeAt_some _ _ _ _ hd
          obtain ⟨hml, hme⟩ := writeAt_some _ _ _ _ hm
          obtain ⟨h1, h2, h3, h4⟩ := ih (j + 1) _ st1 (by omega) h
          refine ⟨?_, ?_, h3, h4⟩
          · intro n hn1 hn2
            by_cases hn : n = i + j
            · obtain ⟨e1, e2⟩ := h2 n (Or.inl (by omega))
              refine ⟨c, hc, ?_, ?_⟩
              · rw [e1]
                simp only [hde, hn]
                rw [List.getElem?_set_self hdl, Nat.add_sub_cancel_left]
              · rw [e2]
                simp only [hme, hn]
                rw [List.getElem?_set_self hml, Nat.add_sub_cancel_left]
            · exact h1 n (by omega) hn2
          · intro n hn
            obtain ⟨e1, e2⟩ := h2 n (by omega)
            rw [e1, e2]
            simp only [hde, hme]
            have hne : i + j ≠ n := by omega
            exact ⟨List.getElem?_set_ne hne, List.getElem?_set_ne hne⟩

/-- What the outer loop from `i = 8 * p` leaves: every pixel from `i` up to the
pixel count decoded, every pixel below `i` as before. -/
theorem embeddedOuter_spec (font_width font_height : Nat) (font_data : List Int) (m : Nat) :
    ∀ (i p : Nat) (st st1 : EmbedState), font_width * font_height ≤ i + 8 * m → i = 8 * p →
      embeddedOuter font_width font_height font_data i p st = some st1 →
      (∀ n, i ≤ n → n < font_width * font_height → ∃ c, font_data[n / 8]? = some c
          ∧ st1.image.data[n]? = some (glyphColor (Nat.testBit (byteOfChar c) (n % 8)))
          ∧ st1.image.mask[n]? = some (glyphMask (Nat.testBit (byteOfChar c) (n % 8))))
      ∧ (∀ n, n < i →
          st1.image.data[n]? = st.image.data[n]? ∧ st1.image.mask[n]? = st.image.mask[n]?)
      ∧ st1.image.width = st.image.width ∧ st1.image.height = st.image.height := by
  induction m with
  | zero =>
    intro i p st st1 hm hip h
    unfold embeddedOuter at h
    rw [if_neg (by omega)] at h
    cases h
    exact ⟨fun n h1 h2 => absurd h2 (by omega), fun n _ => ⟨rfl, rfl⟩, rfl, rfl⟩
  | succ m ih =>
    intro i p st st1 hm hip h
    unfold embeddedOuter at h
    by_cases hi : i < font_width * font_height
    · rw [if_pos hi] at h
      split at h
      · exact absurd h (by simp)
      · rename_i st0 hin
        obtain ⟨a1, a2, a3, a4⟩ := embeddedInner_spec font_data p i 8 0 st st0 (by omega) hin
        obtain ⟨b1, b2, b3, b4⟩ := ih (i + 8) (p + 1) st0 st1 (by omega) (by omega) h
        refine ⟨?_, ?_, by rw [b3, a3], by rw [b4, a4]⟩
        · intro n hn1 hn2
          by_cases hn : n < i + 8
          · obtain ⟨c, hc, e1, e2⟩ := a1 n (by omega) hn
            obtain ⟨f1, f2⟩ := b2 n hn
            have hdiv : n / 8 = p := by omega
            have hmod : n % 8 = n - i := by omega
            exact ⟨c, by rw [hdiv]; exact hc, by rw [f1, hmod]; exact e1,
              by rw [f2, hmod]; exact e2⟩
          · exact b1 n (by omega) hn2
        · intro n hn
          obtain ⟨f1, f2⟩ := b2 n (by omega)
          obtain ⟨g1, g2⟩ := a2 n (Or.inl (by omega))
          exact ⟨by rw [f1, g1], by rw [f2, g2]⟩
    · rw [if_neg hi] at h
      cases h
      exact ⟨fun n h1 h2 => absurd h2 (by omega), fun n _ => ⟨rfl, rfl⟩, rfl, rfl⟩

theorem embeddedInner_defined (font_data : List Int) (p i : Nat) (k : Nat) :
    ∀ (j : Nat) (st : EmbedState), j + k = 8 → p < font_data.length →
      i + 8 ≤ st.image.data.length → i + 8 ≤ st.image.mask.length →
      ∃ st1, embeddedInner font_data p i j st = some st1
        ∧ st1.image.data.length = st.image.data.length
        ∧ st1.image.mask.length = st.image.mask.length := by
  induction k with
  | zero =>
    intro j st hj _ _ _
    have hj8 : ¬ j < 8 := by omega
    unfold embeddedInner
    rw [if_neg hj8]
    exact ⟨st, rfl, rfl, rfl⟩
  | succ k ih =>
    intro j st hj hp hd hm
    have hj8 : j < 8 := by omega
    unfold embeddedInner
    rw [if_pos hj8, List.getElem?_eq_getElem hp]
    have hd1 : i + j < st.image.data.length := by omega
    have hm1 : i + j < st.image.mask.length := by omega
    simp only [writeAt, hd1, hm1, if_true]
    obtain ⟨st1, e, l1, l2⟩ := ih (j + 1)
      { image := { st.image with
          data := st.image.data.set (i + j)
            (if Int.land (font_data[p] >>> j) 1 ≠ 0 then 0xf else 0x00)
          mask := st.image.mask.set (i + j)
            (if Int.land (font_data[p] >>> j) 1 ≠ 0 then 0x0 else 0xff) }
        dataWrites := st.dataWrites ++ [i + j]
        maskWrites := st.maskWrites ++ [i + j]
        reads := st.reads ++ [p] }
      (by omega) hp (by simpa using hd) (by simpa using hm)
    exact ⟨st1, e, by simpa using l1, by simpa using l2⟩

theorem embeddedOuter_defined (font_width font_height : Nat) (font_data : List Int)
    (h8 : 8 ∣ font_width * font_height)
    (hlen : font_width * font_height / 8 ≤ font_data.length) (m : Nat) :
    ∀ (i p : Nat) (st : EmbedState), font_width * font_height ≤ i + 8 * m → i = 8 * p →
      font_width * font_height ≤ st.image.data.length →
      font_width * font_height ≤ st.image.mask.length →
      ∃ st1, embeddedOuter font_width font_height font_data i p st = some st1 := by
  induction m with
  | zero =>
    intro i p st hm _ _ _
    unfold embeddedOuter
    rw [if_neg (by omega)]
    exact ⟨st, rfl⟩
  | succ m ih =>
    intro i p st hm hip hd hk
    unfold embeddedOuter
    by_cases hi : i < font_width * font_height
    · rw [if_pos hi]
      obtain ⟨q, hq⟩ := h8
      have hi8 : i + 8 ≤ font_width * font_height := by omega
      have hp : p < font_data.length := by omega
      obtain ⟨st0, e, l1, l2⟩ := embeddedInner_defined font_data p i 8 0 st (by omega) hp
        (by omega) (by omega)
      rw [e]
      exact ih (i + 8) (p + 1) st0 (by omega) (by omega) (by omega) (by omega)
    · rw [if_neg hi]
      exact ⟨st, rfl⟩

/-- The decoding is defined, and returns `NULL`, when the pixel count is a
multiple of 8 and the embedded data has a byte for every 8 pixels. -/
theorem font_initEmbedded_defined (font_width font_height : Nat) (font_data : List Int)
    (h8 : 8 ∣ font_width * font_height)
    (hlen : font_width * font_height / 8 ≤ font_data.length) :
    ∃ self, font_initEmbedded font_width font_height font_data = some (self, none) := by
  obtain ⟨st1, e⟩ := embeddedOuter_defined font_width font_height font_data h8 hlen
    (font_width * font_height) 0 0 ⟨image_initBlank font_width font_height, [], [], []⟩
    (by omega) rfl (by simp [image_initBlank]) (by simp [image_initBlank])
  exact ⟨⟨st1.image, 0, 0⟩, by simp [font_initEmbedded, font_initEmbedded_run, e]⟩

/-- Every pixel of a font that `font_initEmbedded` returned is decoded from its
bit of the embedded data. -/
theorem font_initEmbedded_pixels (font_width font_height : Nat) (font_data : List Int)
    (self : font_t) (ret : Option String)
    (h : font_initEmbedded font_width font_height font_data = some (self, ret))
    (n : Nat) (hn : n < font_width * font_height) :
    ∃ c, font_data[n / 8]? = some c
      ∧ self.image.data[n]? = some (glyphColor (Nat.testBit (byteOfChar c) (n % 8)))
      ∧ self.image.mask[n]? = some (glyphMask (Nat.testBit (byteOfChar c) (n % 8))) := by
  unfold font_initEmbedded font_initEmbedded_run at h
  cases hrun : embeddedOuter font_width font_height font_data 0 0
      ⟨image_initBlank font_width font_height, [], [], []⟩ with
  | none => rw [hrun] at h; exact absurd h (by simp)
  | some st1 =>
    rw [hrun] at h
    simp only [Option.map_some', Option.some.injEq, Prod.mk.injEq] at h
    obtain ⟨a1, _, _, _⟩ := embeddedOuter_spec font_width font_height font_data
      (font_width * font_height) 0 0 _ st1 (by omega) rfl hrun
    obtain ⟨c, hc, e1, e2⟩ := a1 n (Nat.zero_le n) hn
    rw [← h.1]
    exact ⟨c, hc, e1, e2⟩

theorem largest_lineWidths (w : Int) (hw : 0 ≤ w) (ls : List (List Int)) (hls : ls ≠ []) :
    largest (ls.map (fun l => (l.length : Int) * w))
      = (((ls.map List.length).foldr max 0 : Nat) : Int) * w := by
  induction ls with
  | nil => exact absurd rfl hls
  | cons l rest ih =>
    cases rest with
    | nil => simp [largest]
    | cons l2 rest2 =>
      have ih2 := ih (by simp)
      simp only [List.map_cons, largest, List.foldr_cons] at ih2 ⊢
      rw [ih2]
      push_cast
      simp only [max_mul_of_nonneg _ _ hw]

/-! ## Lemmas on construction, mode and source rectangles -/

theorem font_initEmbedded_result (font_width font_height : Nat) (font_data : List Int)
    (self : font_t) (ret : Option String)
    (h : font_initEmbedded font_width font_height font_data = some (self, ret)) :
    self.charSpacing = 0 ∧ self.lineSpacing = 0 ∧ ret = none
    ∧ self.image.width = font_width ∧ self.image.height = font_height := by
  unfold font_initEmbedded font_initEmbedded_run at h
  cases hrun : embeddedOuter font_width font_height font_data 0 0
      ⟨image_initBlank font_width font_height, [], [], []⟩ with
  | none => rw [hrun] at h; exact absurd h (by simp)
  | some st1 =>
    rw [hrun] at h
    simp only [Option.map_some', Option.some.injEq, Prod.mk.injEq] at h
    obtain ⟨_, _, a3, a4⟩ := embeddedOuter_spec font_width font_height font_data
      (font_width * font_height) 0 0 _ st1 (by omega) rfl hrun
    obtain ⟨h1, h2⟩ := h
    subst h1
    exact ⟨rfl, rfl, h2.symm, a3, a4⟩

/-- The function `font_init` in closed form. -/
theorem font_init_eq (image_init : image_t → List Int → image_t × Option String)
    (filename : List Int) :
    font_init image_init filename
      = (⟨(image_init zeroFont.image filename).1, 0, 0⟩,
         (image_init zeroFont.image filename).2) := by
  unfold font_init
  simp only []
  generalize image_init zeroFont.image filename = r
  obtain ⟨image, err⟩ := r
  cases err <;> rfl

/-- With an `image_blit` that leaves the two globals alone, the instrumented
library runs the calls as the plain one does and logs each with the globals
unchanged. -/
theorem instrument_foldl {σ : Type} (lib : ImageLib σ)
    (hpres : ∀ img a st, (lib.image_blit img a st).image_blendMode = st.image_blendMode
      ∧ (lib.image_blit img a st).image_flip = st.image_flip)
    (img : image_t) (calls : List BlitCall) (b f : Int) (m : σ) (log : List BlitEvent) :
    calls.foldl (fun t a => (instrument lib).image_blit img a t) ⟨b, f, (m, log)⟩
      = ⟨b, f, ((calls.foldl (fun t a => lib.image_blit img a t) ⟨b, f, m⟩).mem,
          log ++ calls.map (fun a => ⟨b, f, img, a⟩))⟩ := by
  induction calls generalizing m log with
  | nil => simp
  | cons a rest ih =>
    obtain ⟨e1, e2⟩ := hpres img a ⟨b, f, m⟩
    have hplain : lib.image_blit img a ⟨b, f, m⟩
        = ⟨b, f, (lib.image_blit img a ⟨b, f, m⟩).mem⟩ := by
      cases hst : lib.image_blit img a ⟨b, f, m⟩ with
      | mk b1 f1 m1 =>
        rw [hst] at e1 e2
        simp only at e1 e2
        rw [e1, e2]
    have hstep : (instrument lib).image_blit img a ⟨b, f, (m, log)⟩
        = ⟨b, f, ((lib.image_blit img a ⟨b, f, m⟩).mem, log ++ [⟨b, f, img, a⟩])⟩ := by
      show (⟨_, _, (_, _)⟩ : State (σ × List BlitEvent)) = _
      simp only [e1, e2]
    simp only [List.foldl_cons, List.map_cons]
    rw [hstep, ih, ← hplain]
    simp

/-- The glyph-to-cell mapping holds for every char value that is not negative
(every byte below 128): the call issued for such a drawn byte has the source
rectangle of the cell of `c`. -/
theorem font_blit_source_rect_of_nonneg (self : font_t) (bufw bufh : Int)
    (pre post : List Int) (c : Nat) (dx dy : Int) (hpre : ∀ d ∈ pre, d ≠ 0)
    (h0 : (c : Int) ≠ 0) (h10 : (c : Int) ≠ 10) (h32 : (c : Int) ≠ 32) :
    ∃ a, (font_blit_calls self bufw bufh (pre ++ (c : Int) :: post) dx dy)[
            (glyphBytes pre).length]? = some a
      ∧ a.sx = cellWidth self * ((c % 16 : Nat) : Int)
      ∧ a.sy = cellHeight self * ((c / 16 : Nat) : Int)
      ∧ a.sw = cellWidth self ∧ a.sh = cellHeight self := by
  refine ⟨_, font_blit_call_at_cursor self bufw bufh pre post c dx dy hpre h0 h10 h32, ?_, ?_, rfl, rfl⟩
  · show cellWidth self * Int.tmod (c : Int) 16 = _
    rw [Int.tmod_eq_emod (Int.natCast_nonneg c) (by decide)]
    norm_cast
  · show cellHeight self * Int.tdiv (c : Int) 16 = _
    rw [Int.tdiv_eq_ediv (Int.natCast_nonneg c) (by decide)]
    norm_cast

/-- The source rectangle of the call for a drawn byte whose char value is not
negative lies inside the atlas. -/
theorem font_blit_source_inside_of_nonneg (self : font_t) (bufw bufh : Int)
    (pre post : List Int) (c : Nat) (dx dy : Int) (hc : c < 256) (hpre : ∀ d ∈ pre, d ≠ 0)
    (h0 : (c : Int) ≠ 0) (h10 : (c : Int) ≠ 10) (h32 : (c : Int) ≠ 32) :
    ∃ a, (font_blit_calls self bufw bufh (pre ++ (c : Int) :: post) dx dy)[
            (glyphBytes pre).length]? = some a
      ∧ 0 ≤ a.sx ∧ a.sx + a.sw ≤ (self.image.width : Int)
      ∧ 0 ≤ a.sy ∧ a.sy + a.sh ≤ (self.image.height : Int) := by
  obtain ⟨a, ha, e1, e2, e3, e4⟩ :=
    font_blit_source_rect_of_nonneg self bufw bufh pre post c dx dy hpre h0 h10 h32
  refine ⟨a, ha, ?_, ?_, ?_, ?_⟩
  · rw [e1]; exact mul_nonneg (Int.natCast_nonneg _) (Int.natCast_nonneg _)
  · rw [e1, e3, cellWidth]
    have h1 : self.image.width / 16 * (c % 16) + self.image.width / 16
        ≤ self.image.width / 16 * 16 := by
      have : c % 16 + 1 ≤ 16 := by omega
      calc self.image.width / 16 * (c % 16) + self.image.width / 16
          = self.image.width / 16 * (c % 16 + 1) := by ring
        _ ≤ self.image.width / 16 * 16 := Nat.mul_le_mul_left _ this
    have h2 : self.image.width / 16 * 16 ≤ self.image.width := Nat.div_mul_le_self _ _
    exact_mod_cast le_trans h1 h2
  · rw [e2]; exact mul_nonneg (Int.natCast_nonneg _) (Int.natCast_nonneg _)
  · rw [e2, e4, cellHeight]
    have h1 : self.image.height / 16 * (c / 16) + self.image.height / 16
        ≤ self.image.height / 16 * 16 := by
      have : c / 16 + 1 ≤ 16 := by omega
      calc self.image.height / 16 * (c / 16) + self.image.height / 16
          = self.image.height / 16 * (c / 16 + 1) := by ring
        _ ≤ self.image.height / 16 * 16 := Nat.mul_le_mul_left _ this
    have h2 : self.image.height / 16 * 16 ≤ self.image.height := Nat.div_mul_le_self _ _
    exact_mod_cast le_trans h1 h2

/-! ## Lemmas for the claims on composition and on the accesses of the decoding -/

theorem textLines_append_newline (a b : List Int) :
    textLines (a ++ 10 :: b) = textLines a ++ textLines b := by
  induction a with
  | nil => rw [List.nil_append, textLines_cons_newline, textLines_nil]; rfl
  | cons c p ih =>
    by_cases hn : c = 10
    · subst hn
      rw [List.cons_append, textLines_cons_newline, textLines_cons_newline, ih]; rfl
    · rw [List.cons_append, textLines_cons_ne c _ hn, textLines_cons_ne c p hn, ih]
      cases hp : textLines p with
      | nil => exact absurd hp (textLines_ne_nil p)
      | cons l rest => rfl

theorem foldr_max_append (l1 l2 : List Nat) :
    (l1 ++ l2).foldr max 0 = max (l1.foldr max 0) (l2.foldr max 0) := by
  induction l1 with
  | nil => simp
  | cons x rest ih => simp only [List.cons_append, List.foldr_cons, ih, max_assoc]

theorem maxLineCharCount_append_newline (a b : List Int) :
    maxLineCharCount (a ++ 10 :: b) = max (maxLineCharCount a) (maxLineCharCount b) := by
  simp only [maxLineCharCount, textLines_append_newline, List.map_append, foldr_max_append]

theorem lineCount_append_newline (a b : List Int) :
    lineCount (a ++ 10 :: b) = lineCount a + lineCount b := by
  simp only [lineCount, List.count_append, List.count_cons_self]
  omega

theorem cstr_append_newline (a b : List Int) (ha : ∀ c ∈ a, c ≠ 0) :
    cstr (a ++ 10 :: b) = a ++ 10 :: cstr b := by
  induction a with
  | nil => rw [List.nil_append, cstr_cons_ne 10 b (by decide)]; rfl
  | cons c p ih =>
    have hc : c ≠ 0 := ha c (List.mem_cons_self c p)
    rw [List.cons_append, cstr_cons_ne c _ hc,
      ih (fun d hd => ha d (List.mem_cons_of_mem c hd))]
    rfl

theorem getHeightLoop_no_newline (s : List Int) (h : ∀ d ∈ s, d ≠ 10) (lines : Int) :
    getHeightLoop s lines = lines := by
  induction s with
  | nil => rfl
  | cons c p ih =>
    have hc : c ≠ 10 := h c (List.mem_cons_self c p)
    simp only [getHeightLoop, hc, if_false]
    split
    · rfl
    · exact ih (fun d hd => h d (List.mem_cons_of_mem c hd))

/-- The accesses of the inner loop from `j`: one write to each buffer at every
index `i + j .. i + 7`, in order, and as many reads of the byte at `p`. -/
theorem embeddedInner_log (font_data : List Int) (p i : Nat) (k : Nat) :
    ∀ (j : Nat) (st st1 : EmbedState), j + k = 8 →
      embeddedInner font_data p i j st = some st1 →
      st1.dataWrites = st.dataWrites ++ List.range' (i + j) k
      ∧ st1.maskWrites = st.maskWrites ++ List.range' (i + j) k
      ∧ st1.reads = st.reads ++ List.replicate k p
      ∧ st1.image.data.length = st.image.data.length
      ∧ st1.image.mask.length = st.image.mask.length := by
  induction k with
  | zero =>
    intro j st st1 hj h
    have hj8 : ¬ j < 8 := by omega
    unfold embeddedInner at h
    rw [if_neg hj8] at h
    cases h
    simp
  | succ k ih =>
    intro j st st1 hj h
    have hj8 : j < 8 := by omega
    unfold embeddedInner at h
    rw [if_pos hj8] at h
    split at h
    · exact absurd h (by simp)
    · rename_i c hc
      dsimp only at h
      split at h
      · exact absurd h (by simp)
      · rename_i data hd
        split at h
        · exact absurd h (by simp)
        · rename_i mask hm
          obtain ⟨_, hde⟩ := writeAt_some _ _ _ _ hd
          obtain ⟨_, hme⟩ := writeAt_some _ _ _ _ hm
          obtain ⟨h1, h2, h3, h4, h5⟩ := ih (j + 1) _ st1 (by omega) h
          simp only at h1 h2 h3 h4 h5
          refine ⟨?_, ?_, ?_, ?_, ?_⟩
          · rw [h1, List.append_assoc, List.range'_succ]; rfl
          · rw [h2, List.append_assoc, List.range'_succ]; rfl
          · rw [h3, List.append_assoc, List.replicate_succ]; rfl
          · rw [h4, hde, List.length_set]
          · rw [h5, hme, List.length_set]

theorem map_div_range'_eight (p : Nat) :
    (List.range' (8 * p) 8).map (fun n => n / 8) = List.replicate 8 p := by
  simp only [List.range', List.map_cons, List.map_nil, List.replicate]
  have e0 : 8 * p / 8 = p := by omega
  have e1 : (8 * p + 1) / 8 = p := by omega
  have e2 : (8 * p + 1 + 1) / 8 = p := by omega
  have e3 : (8 * p + 1 + 1 + 1) / 8 = p := by omega
  have e4 : (8 * p + 1 + 1 + 1 + 1) / 8 = p := by omega
  have e5 : (8 * p + 1 + 1 + 1 + 1 + 1) / 8 = p := by omega
  have e6 : (8 * p + 1 + 1 + 1 + 1 + 1 + 1) / 8 = p := by omega
  have e7 : (8 * p + 1 + 1 + 1 + 1 + 1 + 1 + 1) / 8 = p := by omega
  rw [e0, e1, e2, e3, e4, e5, e6, e7]

/-- The accesses of the outer loop from `i = 8 * p` when the pixel count is a
multiple of 8: one write to each buffer at every index from `i` up to the
pixel count, in order, and a read of byte `n / 8` for each of them. -/
theorem embeddedOuter_log (font_width font_height : Nat) (font_data : List Int)
    (h8 : 8 ∣ font_width * font_height) (m : Nat) :
    ∀ (i p : Nat) (st st1 : EmbedState), font_width * font_height ≤ i + 8 * m → i = 8 * p →
      embeddedOuter font_width font_height font_data i p st = some st1 →
      st1.dataWrites = st.dataWrites ++ List.range' i (font_width * font_height - i)
      ∧ st1.maskWrites = st.maskWrites ++ List.range' i (font_width * font_height - i)
      ∧ st1.reads = st.reads
          ++ (List.range' i (font_width * font_height - i)).map (fun n => n / 8)
      ∧ st1.image.data.length = st.image.data.length
      ∧ st1.image.mask.length = st.image.mask.length := by
  induction m with
  | zero =>
    intro i p st st1 hm hip h
    unfold embeddedOuter at h
    rw [if_neg (by omega)] at h
    cases h
    have : font_width * font_height - i = 0 := by omega
    simp [this]
  | succ m ih =>
    intro i p st st1 hm hip h
    unfold embeddedOuter at h
    by_cases hi : i < font_width * font_height
    · rw [if_pos hi] at h
      split at h
      · exact absurd h (by simp)
      · rename_i st0 hin
        obtain ⟨q, hq⟩ := h8
        obtain ⟨a1, a2, a3, a4, a5⟩ := embeddedInner_log font_data p i 8 0 st st0 (by omega) hin
        obtain ⟨b1, b2, b3, b4, b5⟩ := ih (i + 8) (p + 1) st0 st1 (by omega) (by omega) h
        have hsplit : List.range' i (font_width * font_height - i)
            = List.range' i 8 ++ List.range' (i + 8) (font_width * font_height - (i + 8)) := by
          rw [List.range'_append_1]
          congr 1
          omega
        have hreads : List.replicate 8 p = (List.range' i 8).map (fun n => n / 8) := by
          rw [hip, map_div_range'_eight]
        rw [Nat.add_zero] at a1 a2
        refine ⟨?_, ?_, ?_, by rw [b4, a4], by rw [b5, a5]⟩
        · rw [b1, a1, hsplit, List.append_assoc]
        · rw [b2, a2, hsplit, List.append_assoc]
        · rw [b3, a3, hsplit, List.map_append, hreads, List.append_assoc]
    · rw [if_neg hi] at h
      cases h
      have : font_width * font_height - i = 0 := by omega
      simp [this]

/-! ## The claims -/

/-- C2: for every font and every text, getDimensions(s) is the pair
(getWidth(s), getHeight(s)), both called with the text argument present. -/
theorem getDimensions_eq_getWidth_getHeight (self : font_t) (s : List Int) :
    l_font_getDimensions self s
      = (l_font_getWidth self (some s), l_font_getHeight self (some s)) := by
  simp only [l_font_getDimensions, l_font_getWidth, l_font_getHeight, getDimensionsLoop_eq]

/-- C4 (the code at the failing input): for the byte 200 (0xC8) the char read
from the string is -56, and with a 128 × 128 atlas the one image_blit call has
source origin (8 × -8, 8 × -3) = (-64, -24), not the cell origin
(8 × (200 % 16), 8 × (200 / 16)) = (64, 96) of the claim. -/
theorem font_blit_byte_200_source_origin :
    charOfByte 200 = -56
    ∧ font_blit_calls ⟨⟨[], [], 128, 128⟩, 0, 0⟩ 320 200 [charOfByte 200] 0 0
        = [⟨320, 200, 0, 0, -64, -24, 8, 8⟩]
    ∧ (cellWidth ⟨⟨[], [], 128, 128⟩, 0, 0⟩ * ((200 % 16 : Nat) : Int),
       cellHeight ⟨⟨[], [], 128, 128⟩, 0, 0⟩ * ((200 / 16 : Nat) : Int)) = (64, 96) := by
  decide

/-- C6: whatever image_blit does and whatever image_blendMode and image_flip hold
before the call, after font_blit both hold their values from before the call. -/
theorem font_blit_restores_globals {σ : Type} (lib : ImageLib σ) (self : font_t)
    (bufw bufh : Int) (str : List Int) (dx dy : Int) (st : State σ) :
    (font_blit lib self bufw bufh str dx dy st).image_blendMode = st.image_blendMode
    ∧ (font_blit lib self bufw bufh str dx dy st).image_flip = st.image_flip :=
  ⟨rfl, rfl⟩

/-- C7: after font_initEmbedded (for an embedded bitmap whose pixel count is a
multiple of 8 and whose data has a byte for every 8 pixels, the call returns
NULL and) for every pixel index n below font_width × font_height, with b the
bit (n mod 8), least significant first, of byte (n div 8) of the embedded data:
if b = 1 then image.data[n] = 0xf and image.mask[n] = 0x00, and if b = 0 then
image.mask[n] = 0xff and image.data[n] = 0x00. -/
theorem font_initEmbedded_decodes (font_width font_height : Nat) (font_data : List Int)
    (h8 : 8 ∣ font_width * font_height)
    (hlen : font_width * font_height / 8 ≤ font_data.length) :
    ∃ self, font_initEmbedded font_width font_height font_data = some (self, none)
      ∧ ∀ n, n < font_width * font_height →
        ∃ c, font_data[n / 8]? = some c
          ∧ (Nat.testBit (byteOfChar c) (n % 8) = true →
              self.image.data[n]? = some 0xf ∧ self.image.mask[n]? = some 0x00)
          ∧ (Nat.testBit (byteOfChar c) (n % 8) = false →
              self.image.mask[n]? = some 0xff ∧ self.image.data[n]? = some 0x00) := by
  obtain ⟨self, hself⟩ := font_initEmbedded_defined font_width font_height font_data h8 hlen
  refine ⟨self, hself, fun n hn => ?_⟩
  obtain ⟨c, hc, e1, e2⟩ :=
    font_initEmbedded_pixels font_width font_height font_data self none hself n hn
  refine ⟨c, hc, fun hb => ?_, fun hb => ?_⟩
  · rw [e1, e2, hb]; exact ⟨rfl, rfl⟩
  · rw [e1, e2, hb]; exact ⟨rfl, rfl⟩

/-- C7, instance: a 4 × 2 bitmap whose eight pixels are the bits of the byte 0xA5. -/
theorem font_initEmbedded_decodes_witness :
    8 ∣ 4 * 2 ∧ 4 * 2 / 8 ≤ [charOfByte 0xA5].length
    ∧ ∃ self, font_initEmbedded 4 2 [charOfByte 0xA5] = some (self, none)
      ∧ ∀ n, n < 4 * 2 →
        ∃ c, [charOfByte 0xA5][n / 8]? = some c
          ∧ (Nat.testBit (byteOfChar c) (n % 8) = true →
              self.image.data[n]? = some 0xf ∧ self.image.mask[n]? = some 0x00)
          ∧ (Nat.testBit (byteOfChar c) (n % 8) = false →
              self.image.mask[n]? = some 0xff ∧ self.image.data[n]? = some 0x00) :=
  ⟨by decide, by decide,
   font_initEmbedded_decodes 4 2 [charOfByte 0xA5] (by decide) (by decide)⟩

/-- C11: for every image loader and every file name, font_init returns exactly
what image_init returned: an error if and only if image_init returned one, the
very same string, and NULL otherwise. -/
theorem font_init_returns_loader_error
    (image_init : image_t → List Int → image_t × Option String) (filename : List Int) :
    (font_init image_init filename).2 = (image_init zeroFont.image filename).2
    ∧ ((font_init image_init filename).2.isSome
        ↔ (image_init zeroFont.image filename).2.isSome)
    ∧ (font_init image_init filename).1.image = (image_init zeroFont.image filename).1 := by
  have h := font_init_eq image_init filename
  have h : (font_init image_init filename).2 = (image_init zeroFont.image filename).2
      ∧ (font_init image_init filename).1.image = (image_init zeroFont.image filename).1 := by
    rw [h]; exact ⟨rfl, rfl⟩
  exact ⟨h.1, by rw [h.1], h.2⟩

/-- C12: after font_init (successful or not) and after font_initEmbedded,
charSpacing = 0 and lineSpacing = 0, so that on the fresh font the
per-character advance is image.width / 16 and the per-line advance is
image.height / 16. -/
theorem default_spacing_zero
    (image_init : image_t → List Int → image_t × Option String) (filename : List Int)
    (font_width font_height : Nat) (font_data : List Int)
    (h8 : 8 ∣ font_width * font_height)
    (hlen : font_width * font_height / 8 ≤ font_data.length) :
    ((font_init image_init filename).1.charSpacing = 0
      ∧ (font_init image_init filename).1.lineSpacing = 0
      ∧ l_font_getWidth (font_init image_init filename).1 none
          = (((font_init image_init filename).1.image.width / 16 : Nat) : Int)
      ∧ l_font_getHeight (font_init image_init filename).1 none
          = (((font_init image_init filename).1.image.height / 16 : Nat) : Int))
    ∧ ∃ self, font_initEmbedded font_width font_height font_data = some (self, none)
      ∧ self.charSpacing = 0 ∧ self.lineSpacing = 0
      ∧ l_font_getWidth self none = ((font_width / 16 : Nat) : Int)
      ∧ l_font_getHeight self none = ((font_height / 16 : Nat) : Int) := by
  constructor
  · have h : (font_init image_init filename).1.charSpacing = 0
        ∧ (font_init image_init filename).1.lineSpacing = 0 := by
      rw [font_init_eq]; exact ⟨rfl, rfl⟩
    refine ⟨h.1, h.2, ?_, ?_⟩
    · simp only [l_font_getWidth, h.1, cellPlusSpacing_zero]
    · simp only [l_font_getHeight, h.2, cellPlusSpacing_zero]
  · obtain ⟨self, hself⟩ := font_initEmbedded_defined font_width font_height font_data h8 hlen
    obtain ⟨r1, r2, _, r4, r5⟩ :=
      font_initEmbedded_result font_width font_height font_data self none hself
    refine ⟨self, hself, r1, r2, ?_, ?_⟩
    · simp only [l_font_getWidth, r1, r4, cellPlusSpacing_zero]
    · simp only [l_font_getHeight, r2, r5, cellPlusSpacing_zero]

/-- C12, instance: a loader that fails with "no file", and the 4 × 2 embedded
bitmap of the byte 0xA5. -/
theorem default_spacing_zero_witness :
    8 ∣ 4 * 2 ∧ 4 * 2 / 8 ≤ [charOfByte 0xA5].length
    ∧ (((font_init (fun img _ => (img, some "no file")) [97]).1.charSpacing = 0
      ∧ (font_init (fun img _ => (img, some "no file")) [97]).1.lineSpacing = 0
      ∧ l_font_getWidth (font_init (fun img _ => (img, some "no file")) [97]).1 none
          = (((font_init (fun img _ => (img, some "no file")) [97]).1.image.width / 16
              : Nat) : Int)
      ∧ l_font_getHeight (font_init (fun img _ => (img, some "no file")) [97]).1 none
          = (((font_init (fun img _ => (img, some "no file")) [97]).1.image.height / 16
              : Nat) : Int))
    ∧ ∃ self, font_initEmbedded 4 2 [charOfByte 0xA5] = some (self, none)
      ∧ self.charSpacing = 0 ∧ self.lineSpacing = 0
      ∧ l_font_getWidth self none = ((4 / 16 : Nat) : Int)
      ∧ l_font_getHeight self none = ((2 / 16 : Nat) : Int)) :=
  ⟨by decide, by decide,
   default_spacing_zero (fun img _ => (img, some "no file")) [97] 4 2 [charOfByte 0xA5]
     (by decide) (by decide)⟩

/-- C13 (the code at the failing input): for the byte 200 (0xC8) and a 128 × 128
atlas the source rectangle of the one image_blit call starts at (-64, -24): it
does not lie inside the atlas image. -/
theorem font_blit_byte_200_source_outside :
    (font_blit_calls ⟨⟨[], [], 128, 128⟩, 0, 0⟩ 320 200 [charOfByte 200] 0 0).map
        (fun a => (a.sx, a.sy, a.sw, a.sh)) = [(-64, -24, 8, 8)]
    ∧ (font_blit_calls ⟨⟨[], [], 128, 128⟩, 0, 0⟩ 320 200 [charOfByte 200] 0 0).map
        (fun a => decide (0 ≤ a.sx ∧ a.sx + a.sw ≤ 128 ∧ 0 ≤ a.sy ∧ a.sy + a.sh ≤ 128))
      = [false] := by
  decide

/-- C14: for every image library whose image_blit does not write
image_blendMode or image_flip, every ambient state, font, text and origin,
every image_blit call font_blit issues is made with image_blendMode =
IMAGE_COLOR and image_flip = 0; the logged calls are all the calls of
font_blit, and logging does not change the run. -/
theorem font_blit_calls_in_required_mode {σ : Type} (lib : ImageLib σ)
    (hpres : ∀ img a st, (lib.image_blit img a st).image_blendMode = st.image_blendMode
      ∧ (lib.image_blit img a st).image_flip = st.image_flip)
    (self : font_t) (bufw bufh : Int) (str : List Int) (dx dy : Int) (st : State σ) :
    (∀ e ∈ (font_blit (instrument lib) self bufw bufh str dx dy
              ⟨st.image_blendMode, st.image_flip, (st.mem, [])⟩).mem.2,
        e.blendMode = lib.IMAGE_COLOR ∧ e.flip = 0)
    ∧ (font_blit (instrument lib) self bufw bufh str dx dy
          ⟨st.image_blendMode, st.image_flip, (st.mem, [])⟩).mem.2.map BlitEvent.call
        = font_blit_calls self bufw bufh str dx dy
    ∧ (font_blit (instrument lib) self bufw bufh str dx dy
          ⟨st.image_blendMode, st.image_flip, (st.mem, [])⟩).mem.1
        = (font_blit lib self bufw bufh str dx dy st).mem := by
  have hrun : (font_blit (instrument lib) self bufw bufh str dx dy
        ⟨st.image_blendMode, st.image_flip, (st.mem, [])⟩).mem
      = ((font_blit lib self bufw bufh str dx dy st).mem,
         (font_blit_calls self bufw bufh str dx dy).map
           (fun a => ⟨lib.IMAGE_COLOR, 0, self.image, a⟩)) := by
    rw [font_blit_calls_eq]
    simp only [font_blit, fontBlitLoop_eq_foldl, cellWidth, cellHeight]
    rw [show (instrument lib).IMAGE_COLOR = lib.IMAGE_COLOR from rfl,
      instrument_foldl lib hpres]
    simp
  rw [hrun]
  refine ⟨?_, ?_, rfl⟩
  · intro e he
    simp only [List.mem_map] at he
    obtain ⟨a, _, rfl⟩ := he
    exact ⟨rfl, rfl⟩
  · simp [Function.comp_def]

/-- C14, instance: an image_blit that counts its calls, IMAGE_COLOR = 4, ambient
blend mode 1 and flip 1, the text "A B\nC" drawn at (5, 7). -/
theorem font_blit_calls_in_required_mode_witness :
    (∀ (img : image_t) (a : BlitCall) (st : State Nat),
        ((⟨4, fun _ _ t => ⟨t.image_blendMode, t.image_flip, t.mem + 1⟩⟩ : ImageLib Nat).image_blit
            img a st).image_blendMode = st.image_blendMode
        ∧ ((⟨4, fun _ _ t => ⟨t.image_blendMode, t.image_flip, t.mem + 1⟩⟩ : ImageLib Nat).image_blit
            img a st).image_flip = st.image_flip)
    ∧ (∀ e ∈ (font_blit
              (instrument (⟨4, fun _ _ t => ⟨t.image_blendMode, t.image_flip, t.mem + 1⟩⟩
                : ImageLib Nat))
              ⟨⟨[], [], 128, 48⟩, 1, 2⟩ 320 200 [65, 32, 66, 10, 67] 5 7
              ⟨1, 1, ((0 : Nat), [])⟩).mem.2,
        e.blendMode = 4 ∧ e.flip = 0) :=
  ⟨fun _ _ _ => ⟨rfl, rfl⟩,
   (font_blit_calls_in_required_mode
      (⟨4, fun _ _ t => ⟨t.image_blendMode, t.image_flip, t.mem + 1⟩⟩ : ImageLib Nat)
      (fun _ _ _ => ⟨rfl, rfl⟩) ⟨⟨[], [], 128, 48⟩, 1, 2⟩ 320 200 [65, 32, 66, 10, 67] 5 7
      ⟨1, 1, 0⟩).1⟩

/-- C15: for every font and text, font_blit issues one image_blit call per byte
of the text (up to its terminating NUL) that is neither newline nor space, in
text order, each with the source rectangle of its byte; a text made only of
spaces and newlines causes no call and leaves the whole program state, the
destination buffer included, unchanged, whatever image_blit is. -/
theorem font_blit_draws_glyph_bytes (self : font_t) (bufw bufh : Int) (text : List Int)
    (dx dy : Int) :
    (font_blit_calls self bufw bufh text dx dy).length = (glyphBytes (cstr text)).length
    ∧ (font_blit_calls self bufw bufh text dx dy).map (fun a => (a.sx, a.sy, a.sw, a.sh))
      = (glyphBytes (cstr text)).map
          (fun c => (cellWidth self * Int.tmod c 16, cellHeight self * Int.tdiv c 16,
            cellWidth self, cellHeight self))
    ∧ ((∀ c ∈ text, c = 10 ∨ c = 32) →
        font_blit_calls self bufw bufh text dx dy = []
        ∧ ∀ (σ : Type) (lib : ImageLib σ) (st : State σ),
            font_blit lib self bufw bufh text dx dy st = st) := by
  refine ⟨?_, ?_, fun hall => ?_⟩
  · rw [font_blit_calls_eq, callsFrom_cstr,
      callsFrom_length _ _ _ _ _ _ _ _ (cstr_nulfree text)]
  · rw [font_blit_calls_eq, callsFrom_cstr,
      callsFrom_sources _ _ _ _ _ _ _ _ (cstr_nulfree text)]
  · have hnul : ∀ c ∈ text, c ≠ 0 := by
      intro c hc
      rcases hall c hc with e | e <;> rw [e] <;> decide
    have hnone : callsFrom bufw bufh dx (cellWidth self) (cellHeight self)
        (cellPlusSpacing (cellWidth self) self.charSpacing)
        (cellPlusSpacing (cellHeight self) self.lineSpacing)
        text dx dy = [] := by
      apply List.eq_nil_of_length_eq_zero
      rw [callsFrom_length _ _ _ _ _ _ _ _ hnul, glyphBytes_eq_nil text hall]
      rfl
    refine ⟨by rw [font_blit_calls_eq, hnone], fun σ lib st => ?_⟩
    simp only [font_blit, fontBlitLoop_eq_foldl]
    simp only [cellWidth, cellHeight] at hnone
    rw [hnone]
    rfl

/-- C15, instance: the text "A B\nC" has the three drawn bytes A, B, C, and the
text " \n " causes no call and leaves a state with call counter 7 as it is. -/
theorem font_blit_draws_glyph_bytes_witness :
    (font_blit_calls ⟨⟨[], [], 128, 48⟩, 1, 2⟩ 320 200 [65, 32, 66, 10, 67] 5 7).map
        (fun a => (a.sx, a.sy, a.sw, a.sh))
      = [(8, 12, 8, 3), (16, 12, 8, 3), (24, 12, 8, 3)]
    ∧ (∀ c ∈ ([32, 10, 32] : List Int), c = 10 ∨ c = 32)
    ∧ font_blit_calls ⟨⟨[], [], 128, 48⟩, 1, 2⟩ 320 200 [32, 10, 32] 5 7 = []
    ∧ font_blit (⟨4, fun _ _ t => ⟨t.image_blendMode, t.image_flip, t.mem + 1⟩⟩ : ImageLib Nat)
        ⟨⟨[], [], 128, 48⟩, 1, 2⟩ 320 200 [32, 10, 32] 5 7 ⟨1, 1, 7⟩ = ⟨1, 1, 7⟩ :=
  ⟨by decide, by decide,
   ((font_blit_draws_glyph_bytes ⟨⟨[], [], 128, 48⟩, 1, 2⟩ 320 200 [32, 10, 32] 5 7).2.2
      (by decide)).1,
   ((font_blit_draws_glyph_bytes ⟨⟨[], [], 128, 48⟩, 1, 2⟩ 320 200 [32, 10, 32] 5 7).2.2
      (by decide)).2 Nat _ ⟨1, 1, 7⟩⟩

/-- C18: if font_width × font_height is a multiple of 8 and the embedded data has
at least font_width × font_height / 8 bytes, then font_initEmbedded returns
NULL, writes each pixel index below font_width × font_height of image.data
and of image.mask exactly once (in increasing order) and no other index, and
the bytes of the embedded data it reads are exactly the first
font_width × font_height / 8. -/
theorem font_initEmbedded_stays_inside (font_width font_height : Nat) (font_data : List Int)
    (h8 : 8 ∣ font_width * font_height)
    (hlen : font_width * font_height / 8 ≤ font_data.length) :
    ∃ st, font_initEmbedded_run font_width font_height font_data = some st
      ∧ font_initEmbedded font_width font_height font_data = some (⟨st.image, 0, 0⟩, none)
      ∧ st.image.data.length = font_width * font_height
      ∧ st.image.mask.length = font_width * font_height
      ∧ st.dataWrites = List.range (font_width * font_height)
      ∧ st.maskWrites = List.range (font_width * font_height)
      ∧ (∀ n, st.dataWrites.count n = if n < font_width * font_height then 1 else 0)
      ∧ (∀ n, st.maskWrites.count n = if n < font_width * font_height then 1 else 0)
      ∧ st.reads = (List.range (font_width * font_height)).map (fun n => n / 8)
      ∧ (∀ p, p ∈ st.reads ↔ p < font_width * font_height / 8) := by
  obtain ⟨st, hst⟩ := embeddedOuter_defined font_width font_height font_data h8 hlen
    (font_width * font_height) 0 0 ⟨image_initBlank font_width font_height, [], [], []⟩
    (by omega) rfl (by simp [image_initBlank]) (by simp [image_initBlank])
  obtain ⟨a1, a2, a3, a4, a5⟩ := embeddedOuter_log font_width font_height font_data h8
    (font_width * font_height) 0 0 _ st (by omega) rfl hst
  simp only [List.nil_append, Nat.sub_zero, ← List.range_eq_range'] at a1 a2 a3
  have hcount : ∀ n, (List.range (font_width * font_height)).count n
      = if n < font_width * font_height then 1 else 0 := by
    intro n
    by_cases hn : n < font_width * font_height
    · rw [if_pos hn]
      exact List.count_eq_one_of_mem (List.nodup_range _) (List.mem_range.mpr hn)
    · rw [if_neg hn]
      exact List.count_eq_zero_of_not_mem (fun hm => hn (List.mem_range.mp hm))
  refine ⟨st, hst, by simp [font_initEmbedded, font_initEmbedded_run, hst], ?_, ?_, a1, a2,
    by rw [a1]; exact hcount, by rw [a2]; exact hcount, a3, ?_⟩
  · rw [a4]; simp [image_initBlank]
  · rw [a5]; simp [image_initBlank]
  · intro p
    rw [a3, List.mem_map]
    obtain ⟨q, hq⟩ := h8
    constructor
    · rintro ⟨n, hn, rfl⟩
      have := List.mem_range.mp hn
      omega
    · intro hp
      exact ⟨8 * p, List.mem_range.mpr (by omega), by omega⟩

/-- C18, instance: the 4 × 2 bitmap of the byte 0xA5: eight writes to each
buffer, at 0..7, and eight reads of byte 0. -/
theorem font_initEmbedded_stays_inside_witness :
    8 ∣ 4 * 2 ∧ 4 * 2 / 8 ≤ [charOfByte 0xA5].length
    ∧ ∃ st, font_initEmbedded_run 4 2 [charOfByte 0xA5] = some st
      ∧ font_initEmbedded 4 2 [charOfByte 0xA5] = some (⟨st.image, 0, 0⟩, none)
      ∧ st.image.data.length = 4 * 2
      ∧ st.image.mask.length = 4 * 2
      ∧ st.dataWrites = List.range (4 * 2)
      ∧ st.maskWrites = List.range (4 * 2)
      ∧ (∀ n, st.dataWrites.count n = if n < 4 * 2 then 1 else 0)
      ∧ (∀ n, st.maskWrites.count n = if n < 4 * 2 then 1 else 0)
      ∧ st.reads = (List.range (4 * 2)).map (fun n => n / 8)
      ∧ (∀ p, p ∈ st.reads ↔ p < 4 * 2 / 8) :=
  ⟨by decide, by decide,
   font_initEmbedded_stays_inside 4 2 [charOfByte 0xA5] (by decide) (by decide)⟩

/-! ## The claims on measurement and cursor, with their range of validity -/

/-- C1 (as stated, refuted): with image width 16, charSpacing -2 and the NUL-free
text "AB\\nC" the reported width is -2, while the largest of the line widths
(2 × -1 and 1 × -1) is -1; and with a 128 × 48 atlas, charSpacing 1073741823 and
the text "AB" the reported width is -2147483634, the `int` value of the product
2 × 1073741831 = 2147483662, which is the one line width. -/
theorem getDimensions_width_not_largest_line_width :
    ((∀ c ∈ ([65, 66, 10, 67] : List Int), c ≠ 0)
      ∧ (l_font_getDimensions ⟨⟨[], [], 16, 16⟩, -2, 0⟩ [65, 66, 10, 67]).1 = -2
      ∧ largest (lineWidths ⟨⟨[], [], 16, 16⟩, -2, 0⟩ [65, 66, 10, 67]) = -1
      ∧ (l_font_getDimensions ⟨⟨[], [], 16, 16⟩, -2, 0⟩ [65, 66, 10, 67]).1
          ≠ largest (lineWidths ⟨⟨[], [], 16, 16⟩, -2, 0⟩ [65, 66, 10, 67]))
    ∧ ((∀ c ∈ ([65, 66] : List Int), c ≠ 0)
      ∧ (l_font_getDimensions ⟨⟨[], [], 128, 48⟩, 1073741823, 0⟩ [65, 66]).1 = -2147483634
      ∧ largest (lineWidths ⟨⟨[], [], 128, 48⟩, 1073741823, 0⟩ [65, 66]) = 2147483662) := by
  decide

/-- C1 (amended): for every font and every NUL-free text shorter than 2^31 - 1
bytes for which the two products below lie in the range of `int`, getDimensions
returns width = (the largest number of bytes on any line) × (image.width/16 +
charSpacing) and height = lineCount × (image.height/16 + lineSpacing), with
lineCount = 1 + the number of newline bytes; when image.width/16 + charSpacing
is not negative, that width is the largest of the line widths. -/
theorem getDimensions_measures (self : font_t) (text : List Int)
    (hnul : ∀ c ∈ text, c ≠ 0) (hlen : text.length < 2147483647)
    (hW : inInt ((maxLineCharCount text : Int) * (cellWidth self + self.charSpacing)))
    (hH : inInt (((1 + text.count 10 : Nat) : Int) * (cellHeight self + self.lineSpacing))) :
    l_font_getDimensions self text
        = ((maxLineCharCount text : Int) * (cellWidth self + self.charSpacing),
           ((1 + text.count 10 : Nat) : Int) * (cellHeight self + self.lineSpacing))
    ∧ (0 ≤ cellWidth self + self.charSpacing →
        (l_font_getDimensions self text).1 = largest (lineWidths self text)) := by
  have hc := cstr_of_nulfree text hnul
  have hclosed := l_font_getDimensions_exact self text (by rw [hc]; exact hlen)
    (by rw [hc]; exact hW) (by rw [hc]; exact hH)
  rw [hc] at hclosed
  refine ⟨hclosed, fun hw => ?_⟩
  rw [hclosed]
  exact (largest_lineWidths _ hw (textLines text) (textLines_ne_nil text)).symm

/-- C1, instance: a 128 × 48 atlas, charSpacing 1, lineSpacing 2, the text "A B\\nC". -/
theorem getDimensions_measures_witness :
    (∀ c ∈ ([65, 32, 66, 10, 67] : List Int), c ≠ 0)
    ∧ ([65, 32, 66, 10, 67] : List Int).length < 2147483647
    ∧ inInt ((maxLineCharCount [65, 32, 66, 10, 67] : Int)
        * (cellWidth ⟨⟨[], [], 128, 48⟩, 1, 2⟩ + 1))
    ∧ inInt (((1 + List.count 10 ([65, 32, 66, 10, 67] : List Int) : Nat) : Int)
        * (cellHeight ⟨⟨[], [], 128, 48⟩, 1, 2⟩ + 2))
    ∧ l_font_getDimensions ⟨⟨[], [], 128, 48⟩, 1, 2⟩ [65, 32, 66, 10, 67]
        = ((maxLineCharCount [65, 32, 66, 10, 67] : Int)
            * (cellWidth ⟨⟨[], [], 128, 48⟩, 1, 2⟩ + 1),
           ((1 + List.count 10 ([65, 32, 66, 10, 67] : List Int) : Nat) : Int)
            * (cellHeight ⟨⟨[], [], 128, 48⟩, 1, 2⟩ + 2))
    ∧ (l_font_getDimensions ⟨⟨[], [], 128, 48⟩, 1, 2⟩ [65, 32, 66, 10, 67]).1
        = largest (lineWidths ⟨⟨[], [], 128, 48⟩, 1, 2⟩ [65, 32, 66, 10, 67]) :=
  ⟨by decide, by decide, by decide, by decide,
   (getDimensions_measures ⟨⟨[], [], 128, 48⟩, 1, 2⟩ [65, 32, 66, 10, 67] (by decide)
      (by decide) (by decide) (by decide)).1,
   (getDimensions_measures ⟨⟨[], [], 128, 48⟩, 1, 2⟩ [65, 32, 66, 10, 67] (by decide)
      (by decide) (by decide) (by decide)).2 (by decide)⟩

/-- C3 (as stated, refuted): with a 128 × 48 atlas, charSpacing 1073741823,
lineSpacing 0 and the text "AB" drawn at (0, 0), the glyph B is drawn at
x = 1073741831 while the measured width is -2147483634 (the `int` value of
2147483662): x + cellWidth ≤ dx + W fails. -/
theorem font_blit_outside_measured_box :
    (0 : Int) ≤ (⟨⟨[], [], 128, 48⟩, 1073741823, 0⟩ : font_t).charSpacing
    ∧ (0 : Int) ≤ (⟨⟨[], [], 128, 48⟩, 1073741823, 0⟩ : font_t).lineSpacing
    ∧ font_blit_calls ⟨⟨[], [], 128, 48⟩, 1073741823, 0⟩ 320 200 [65, 66] 0 0
        = [⟨320, 200, 0, 0, 8, 12, 8, 3⟩, ⟨320, 200, 1073741831, 0, 16, 12, 8, 3⟩]
    ∧ l_font_getDimensions ⟨⟨[], [], 128, 48⟩, 1073741823, 0⟩ [65, 66] = (-2147483634, 3)
    ∧ ¬ ((1073741831 : Int) + cellWidth ⟨⟨[], [], 128, 48⟩, 1073741823, 0⟩
          ≤ 0 + (l_font_getDimensions ⟨⟨[], [], 128, 48⟩, 1073741823, 0⟩ [65, 66]).1) := by
  decide

/-- C3 (amended): for every font with charSpacing ≥ 0 and lineSpacing ≥ 0, every
text shorter than 2^31 - 1 bytes and every origin (dx, dy), such that dx, dy,
the exact size maxLineCharCount × (cellWidth + charSpacing) by lineCount ×
(cellHeight + lineSpacing) and the corner of the box of that size at the origin
lie in the range of `int`: each glyph rectangle font_blit passes to image_blit
has size cellWidth × cellHeight and lies inside the box of the measured size
(W, H) = getDimensions(text) placed at the origin. -/
theorem font_blit_within_measured_box (self : font_t) (hcs : 0 ≤ self.charSpacing)
    (hls : 0 ≤ self.lineSpacing) (bufw bufh : Int) (text : List Int) (dx dy : Int)
    (hlen : (cstr text).length < 2147483647) (hdx : inInt dx) (hdy : inInt dy)
    (hW : inInt ((maxLineCharCount (cstr text) : Int) * (cellWidth self + self.charSpacing)))
    (hH : inInt ((lineCount (cstr text) : Int) * (cellHeight self + self.lineSpacing)))
    (hX : inInt (dx
      + (maxLineCharCount (cstr text) : Int) * (cellWidth self + self.charSpacing)))
    (hY : inInt (dy
      + (lineCount (cstr text) : Int) * (cellHeight self + self.lineSpacing))) :
    ∀ a ∈ font_blit_calls self bufw bufh text dx dy,
      a.sw = cellWidth self ∧ a.sh = cellHeight self
      ∧ dx ≤ a.x ∧ a.x + cellWidth self ≤ dx + (l_font_getDimensions self text).1
      ∧ dy ≤ a.y ∧ a.y + cellHeight self ≤ dy + (l_font_getDimensions self text).2 := by
  intro a ha
  rw [font_blit_calls_eq, callsFrom_cstr] at ha
  have hcw : 0 ≤ cellWidth self := Int.natCast_nonneg _
  have hch : 0 ≤ cellHeight self := Int.natCast_nonneg _
  by_cases hM : maxLineCharCount (cstr text) = 0
  · have hlen0 := callsFrom_length bufw bufh dx (cellWidth self) (cellHeight self)
      (cellPlusSpacing (cellWidth self) self.charSpacing)
      (cellPlusSpacing (cellHeight self) self.lineSpacing) (cstr text) (cstr_nulfree text) dx dy
    rw [glyphBytes_eq_nil_of_no_chars (cstr text) hM] at hlen0
    rw [List.eq_nil_of_length_eq_zero hlen0] at ha
    exact absurd ha (List.not_mem_nil a)
  · have hM1 : (1 : Int) ≤ (maxLineCharCount (cstr text) : Int) := by
      have : 1 ≤ maxLineCharCount (cstr text) := Nat.one_le_iff_ne_zero.mpr hM
      exact_mod_cast this
    have hL1 : (1 : Int) ≤ (lineCount (cstr text) : Int) := by
      have : 1 ≤ lineCount (cstr text) := by unfold lineCount; omega
      exact_mod_cast this
    have hcws := cellPlusSpacing_of_inInt (cellWidth self) self.charSpacing
      (inInt_of_mul _ _ hM1 hW)
    have hchs := cellPlusSpacing_of_inInt (cellHeight self) self.lineSpacing
      (inInt_of_mul _ _ hL1 hH)
    rw [hcws, hchs] at ha
    obtain ⟨z1, z2⟩ := dimLoopZ_closed (cstr text) (cstr_nulfree text)
    obtain ⟨b1, b2, b3, b4, b5, b6⟩ :=
      callsFrom_bounds bufw bufh dx dy (cellWidth self) (cellHeight self)
        (cellWidth self + self.charSpacing) (cellHeight self + self.lineSpacing)
        (Int.add_nonneg hcw hcs) (Int.add_nonneg hch hls) hdx.1 hdy.1 (cstr text) 0 0 1 dx dy
        (by ring) (by ring)
        (le_refl 0) (le_refl 1) (by rw [z1]; exact hX.2) (by rw [z2]; exact hY.2) a ha
    rw [z1] at b2
    rw [z2] at b4
    rw [l_font_getDimensions_exact self text hlen hW hH]
    exact ⟨b5, b6, b1, by simp only; linarith, b3, by simp only; linarith⟩

/-- C3, instance: a 128 × 48 atlas, charSpacing 1, lineSpacing 2, the text "A B\\nC"
drawn at (5, 7). -/
theorem font_blit_within_measured_box_witness :
    (0 : Int) ≤ (⟨⟨[], [], 128, 48⟩, 1, 2⟩ : font_t).charSpacing
    ∧ (0 : Int) ≤ (⟨⟨[], [], 128, 48⟩, 1, 2⟩ : font_t).lineSpacing
    ∧ (cstr [65, 32, 66, 10, 67]).length < 2147483647
    ∧ inInt 5 ∧ inInt 7
    ∧ inInt ((maxLineCharCount (cstr [65, 32, 66, 10, 67]) : Int)
        * (cellWidth ⟨⟨[], [], 128, 48⟩, 1, 2⟩ + 1))
    ∧ inInt ((lineCount (cstr [65, 32, 66, 10, 67]) : Int)
        * (cellHeight ⟨⟨[], [], 128, 48⟩, 1, 2⟩ + 2))
    ∧ inInt (5 + (maxLineCharCount (cstr [65, 32, 66, 10, 67]) : Int)
        * (cellWidth ⟨⟨[], [], 128, 48⟩, 1, 2⟩ + 1))
    ∧ inInt (7 + (lineCount (cstr [65, 32, 66, 10, 67]) : Int)
        * (cellHeight ⟨⟨[], [], 128, 48⟩, 1, 2⟩ + 2))
    ∧ ∀ a ∈ font_blit_calls ⟨⟨[], [], 128, 48⟩, 1, 2⟩ 320 200 [65, 32, 66, 10, 67] 5 7,
      a.sw = cellWidth ⟨⟨[], [], 128, 48⟩, 1, 2⟩ ∧ a.sh = cellHeight ⟨⟨[], [], 128, 48⟩, 1, 2⟩
      ∧ 5 ≤ a.x
      ∧ a.x + cellWidth ⟨⟨[], [], 128, 48⟩, 1, 2⟩
          ≤ 5 + (l_font_getDimensions ⟨⟨[], [], 128, 48⟩, 1, 2⟩ [65, 32, 66, 10, 67]).1
      ∧ 7 ≤ a.y
      ∧ a.y + cellHeight ⟨⟨[], [], 128, 48⟩, 1, 2⟩
          ≤ 7 + (l_font_getDimensions ⟨⟨[], [], 128, 48⟩, 1, 2⟩ [65, 32, 66, 10, 67]).2 :=
  ⟨by decide, by decide, by decide, by decide, by decide, by decide, by decide, by decide,
   by decide,
   font_blit_within_measured_box ⟨⟨[], [], 128, 48⟩, 1, 2⟩ (by decide) (by decide)
     320 200 [65, 32, 66, 10, 67] 5 7 (by decide) (by decide) (by decide) (by decide)
     (by decide) (by decide) (by decide)⟩

/-- C5 (as stated, refuted): with a 128 × 48 atlas, charSpacing 1073741823 and the
text "ABC" drawn at (0, 0), the byte C, third on its line, is drawn at
x = -2147483634, the `int` value of 0 + 2 × 1073741831 = 2147483662. -/
theorem font_blit_cursor_wraps :
    (font_blit_calls ⟨⟨[], [], 128, 48⟩, 1073741823, 0⟩ 320 200 ([65, 66] ++ 67 :: []) 0 0)[
        (glyphBytes [65, 66]).length]?
      = some ⟨320, 200, -2147483634, 0, 24, 12, 8, 3⟩
    ∧ (0 : Int) + (bytesSinceNewline [65, 66] : Int)
        * (cellWidth ⟨⟨[], [], 128, 48⟩, 1073741823, 0⟩ + 1073741823) = 2147483662 := by
  decide

/-- C5 (amended): for every font, text and origin (dx, dy) of `int` values, the
image_blit call for a drawn byte has destination (dx + k × (cellWidth +
charSpacing), dy + l × (cellHeight + lineSpacing)) whenever these two values lie
in the range of `int`, where l is the number of newline bytes before the byte
and k the number of bytes (spaces included) between the last preceding newline,
or the start of the text, and the byte. -/
theorem font_blit_cursor (self : font_t) (bufw bufh : Int) (pre post : List Int) (c : Int)
    (dx dy : Int) (hpre : ∀ d ∈ pre, d ≠ 0) (h0 : c ≠ 0) (h10 : c ≠ 10) (h32 : c ≠ 32)
    (hdx : inInt dx) (hdy : inInt dy)
    (hX : inInt (dx + (bytesSinceNewline pre : Int) * (cellWidth self + self.charSpacing)))
    (hY : inInt (dy + (pre.count 10 : Int) * (cellHeight self + self.lineSpacing))) :
    ∃ a, (font_blit_calls self bufw bufh (pre ++ c :: post) dx dy)[(glyphBytes pre).length]?
          = some a
      ∧ a.x = dx + (bytesSinceNewline pre : Int) * (cellWidth self + self.charSpacing)
      ∧ a.y = dy + (pre.count 10 : Int) * (cellHeight self + self.lineSpacing) :=
  ⟨_, font_blit_call_at self bufw bufh pre post c dx dy hdx hdy hpre h0 h10 h32,
    wrap32_of_inInt _ hX, wrap32_of_inInt _ hY⟩

/-- C5, instance: the byte 'C' of the text "A\\n BCD" drawn at (5, 7): one newline
and two bytes on its line before it. -/
theorem font_blit_cursor_witness :
    (∀ d ∈ ([65, 10, 32, 66] : List Int), d ≠ 0) ∧ (67 : Int) ≠ 0 ∧ (67 : Int) ≠ 10
    ∧ (67 : Int) ≠ 32 ∧ inInt 5 ∧ inInt 7
    ∧ inInt (5 + (bytesSinceNewline [65, 10, 32, 66] : Int)
        * (cellWidth ⟨⟨[], [], 128, 48⟩, 1, 2⟩ + 1))
    ∧ inInt (7 + (List.count 10 ([65, 10, 32, 66] : List Int) : Int)
        * (cellHeight ⟨⟨[], [], 128, 48⟩, 1, 2⟩ + 2))
    ∧ ∃ a, (font_blit_calls ⟨⟨[], [], 128, 48⟩, 1, 2⟩ 320 200
              ([65, 10, 32, 66] ++ 67 :: [68]) 5 7)[(glyphBytes [65, 10, 32, 66]).length]?
          = some a
      ∧ a.x = 5 + (bytesSinceNewline [65, 10, 32, 66] : Int)
                * (cellWidth ⟨⟨[], [], 128, 48⟩, 1, 2⟩ + 1)
      ∧ a.y = 7 + (List.count 10 ([65, 10, 32, 66] : List Int) : Int)
                * (cellHeight ⟨⟨[], [], 128, 48⟩, 1, 2⟩ + 2) :=
  ⟨by decide, by decide, by decide, by decide, by decide, by decide, by decide, by decide,
   font_blit_cursor ⟨⟨[], [], 128, 48⟩, 1, 2⟩ 320 200 [65, 10, 32, 66] [68] 67 5 7
     (by decide) (by decide) (by decide) (by decide) (by decide) (by decide) (by decide)
     (by decide)⟩

/-- C8 (as stated, refuted): on the string "A\\0BB" (a NUL after the first byte)
with a 128 × 48 atlas, raising charSpacing from 0 to 1 raises the reported width
from 8 to 9, that is by 1 × 1, while the one line of the string has 4 bytes; and
on the text "AB", raising charSpacing from 0 by 1073741823 takes the reported
width from 16 to -2147483634, the `int` value of 16 + 1073741823 × 2 =
2147483662. -/
theorem getDimensions_spacing_increase_nul :
    ((l_font_getDimensions ⟨⟨[], [], 128, 48⟩, 0, 0⟩ [65, 0, 66, 66]).1 = 8
      ∧ (l_font_getDimensions (l_font_setCharSpacing ⟨⟨[], [], 128, 48⟩, 0, 0⟩ (0 + 1))
          [65, 0, 66, 66]).1 = 9
      ∧ maxLineCharCount [65, 0, 66, 66] = 4
      ∧ (l_font_getDimensions (l_font_setCharSpacing ⟨⟨[], [], 128, 48⟩, 0, 0⟩ (0 + 1))
          [65, 0, 66, 66]).1
        ≠ (l_font_getDimensions ⟨⟨[], [], 128, 48⟩, 0, 0⟩ [65, 0, 66, 66]).1
            + 1 * (maxLineCharCount [65, 0, 66, 66] : Int))
    ∧ ((l_font_getDimensions ⟨⟨[], [], 128, 48⟩, 0, 0⟩ [65, 66]).1 = 16
      ∧ (l_font_getDimensions
          (l_font_setCharSpacing ⟨⟨[], [], 128, 48⟩, 0, 0⟩ (0 + 1073741823)) [65, 66]).1
        = -2147483634
      ∧ (l_font_getDimensions ⟨⟨[], [], 128, 48⟩, 0, 0⟩ [65, 66]).1
          + 1073741823 * (maxLineCharCount [65, 66] : Int) = 2147483662) := by
  decide

/-- C8 (amended): for every font, string s whose text (the part before its first
NUL, all of s when s is NUL-free) is shorter than 2^31 - 1 bytes, and integer k
such that the raised spacing and the exact sizes before and after lie in the
range of `int`: raising charSpacing by k raises the width reported by
getDimensions(s) by exactly k × maxLineCharCount and leaves the height unchanged;
raising lineSpacing by k raises the reported height by exactly k × lineCount and
leaves the width unchanged, where maxLineCharCount and lineCount are those of
the text of s. -/
theorem getDimensions_spacing_increase (self : font_t) (s : List Int) (k : Int)
    (hlen : (cstr s).length < 2147483647)
    (hcs : inInt (self.charSpacing + k)) (hls : inInt (self.lineSpacing + k))
    (hW : inInt ((maxLineCharCount (cstr s) : Int) * (cellWidth self + self.charSpacing)))
    (hWk : inInt ((maxLineCharCount (cstr s) : Int)
      * (cellWidth self + (self.charSpacing + k))))
    (hH : inInt ((lineCount (cstr s) : Int) * (cellHeight self + self.lineSpacing)))
    (hHk : inInt ((lineCount (cstr s) : Int)
      * (cellHeight self + (self.lineSpacing + k)))) :
    l_font_getDimensions (l_font_setCharSpacing self (self.charSpacing + k)) s
        = ((l_font_getDimensions self s).1 + k * (maxLineCharCount (cstr s) : Int),
           (l_font_getDimensions self s).2)
    ∧ l_font_getDimensions (l_font_setLineSpacing self (self.lineSpacing + k)) s
        = ((l_font_getDimensions self s).1,
           (l_font_getDimensions self s).2 + k * (lineCount (cstr s) : Int)) := by
  simp only [l_font_getDimensions_closed _ s hlen, l_font_setCharSpacing,
    l_font_setLineSpacing, cellWidth, cellHeight, wrap32_of_inInt _ hcs,
    wrap32_of_inInt _ hls, Prod.mk.injEq]
  simp only [cellWidth, cellHeight] at hW hWk hH hHk
  refine ⟨⟨?_, trivial⟩, ⟨trivial, ?_⟩⟩
  · rw [wrap32_of_inInt _ hW, wrap32_of_inInt _ hWk]; ring
  · rw [wrap32_of_inInt _ hH, wrap32_of_inInt _ hHk]; ring

/-- C8, instance: a 128 × 48 atlas, charSpacing 1, lineSpacing 2, the text "A B\\nC",
k = -3. -/
theorem getDimensions_spacing_increase_witness :
    (cstr [65, 32, 66, 10, 67]).length < 2147483647
    ∧ inInt (1 + -3) ∧ inInt (2 + -3)
    ∧ inInt ((maxLineCharCount (cstr [65, 32, 66, 10, 67]) : Int)
        * (cellWidth ⟨⟨[], [], 128, 48⟩, 1, 2⟩ + 1))
    ∧ inInt ((maxLineCharCount (cstr [65, 32, 66, 10, 67]) : Int)
        * (cellWidth ⟨⟨[], [], 128, 48⟩, 1, 2⟩ + (1 + -3)))
    ∧ inInt ((lineCount (cstr [65, 32, 66, 10, 67]) : Int)
        * (cellHeight ⟨⟨[], [], 128, 48⟩, 1, 2⟩ + 2))
    ∧ inInt ((lineCount (cstr [65, 32, 66, 10, 67]) : Int)
        * (cellHeight ⟨⟨[], [], 128, 48⟩, 1, 2⟩ + (2 + -3)))
    ∧ l_font_getDimensions (l_font_setCharSpacing ⟨⟨[], [], 128, 48⟩, 1, 2⟩ (1 + -3))
          [65, 32, 66, 10, 67]
        = ((l_font_getDimensions ⟨⟨[], [], 128, 48⟩, 1, 2⟩ [65, 32, 66, 10, 67]).1
            + -3 * (maxLineCharCount (cstr [65, 32, 66, 10, 67]) : Int),
           (l_font_getDimensions ⟨⟨[], [], 128, 48⟩, 1, 2⟩ [65, 32, 66, 10, 67]).2)
    ∧ l_font_getDimensions (l_font_setLineSpacing ⟨⟨[], [], 128, 48⟩, 1, 2⟩ (2 + -3))
          [65, 32, 66, 10, 67]
        = ((l_font_getDimensions ⟨⟨[], [], 128, 48⟩, 1, 2⟩ [65, 32, 66, 10, 67]).1,
           (l_font_getDimensions ⟨⟨[], [], 128, 48⟩, 1, 2⟩ [65, 32, 66, 10, 67]).2
            + -3 * (lineCount (cstr [65, 32, 66, 10, 67]) : Int)) :=
  ⟨by decide, by decide, by decide, by decide, by decide, by decide, by decide,
   getDimensions_spacing_increase ⟨⟨[], [], 128, 48⟩, 1, 2⟩ [65, 32, 66, 10, 67] (-3)
     (by decide) (by decide) (by decide) (by decide) (by decide) (by decide) (by decide)⟩

/-- C10 (as stated, refuted): with a 128 × 48 atlas and lineSpacing 2147483647,
getDimensions("") is (0, -2147483646), the `int` value of 3 + 2147483647 =
2147483650. -/
theorem getDimensions_empty_wraps :
    l_font_getDimensions ⟨⟨[], [], 128, 48⟩, 0, 2147483647⟩ [] = (0, -2147483646)
    ∧ cellHeight ⟨⟨[], [], 128, 48⟩, 0, 2147483647⟩ + 2147483647 = 2147483650 := by
  decide

/-- C10 (amended): for every font whose one-line height cellHeight + lineSpacing
lies in the range of `int`, getDimensions("") is (0, cellHeight + lineSpacing),
which is (0, cellHeight) when lineSpacing is 0; getWidth("") is 0 and
getHeight("") is the height of one line. -/
theorem getDimensions_empty (self : font_t)
    (hH : inInt (cellHeight self + self.lineSpacing)) :
    l_font_getDimensions self [] = (0, cellHeight self + self.lineSpacing)
    ∧ (self.lineSpacing = 0 → l_font_getDimensions self [] = (0, cellHeight self))
    ∧ l_font_getWidth self (some []) = 0
    ∧ l_font_getHeight self (some []) = cellHeight self + self.lineSpacing
    ∧ l_font_getHeight self (some []) = l_font_getHeight self none := by
  have hc := cellPlusSpacing_of_inInt (cellHeight self) self.lineSpacing hH
  have h0 : wrap32 0 = 0 := by decide
  simp only [cellHeight] at hc hH ⊢
  have hd : l_font_getDimensions self []
      = (0, ((self.image.height / 16 : Nat) : Int) + self.lineSpacing) := by
    simp only [l_font_getDimensions, getDimensionsLoop, hc, ite_self, zero_mul, one_mul, h0,
      wrap32_of_inInt _ hH]
  have hh : l_font_getHeight self (some [])
      = ((self.image.height / 16 : Nat) : Int) + self.lineSpacing := by
    simp only [l_font_getHeight, getHeightLoop, hc, one_mul, wrap32_of_inInt _ hH]
  refine ⟨hd, fun hz => ?_, ?_, hh, ?_⟩
  · rw [hd, hz, add_zero]
  · simp [l_font_getWidth, getWidthLoop, h0]
  · rw [hh]
    simp only [l_font_getHeight, hc]

/-- C10, instance: a 128 × 48 atlas with lineSpacing 0. -/
theorem getDimensions_empty_witness :
    inInt (cellHeight ⟨⟨[], [], 128, 48⟩, 1, 0⟩ + 0)
    ∧ l_font_getDimensions ⟨⟨[], [], 128, 48⟩, 1, 0⟩ []
        = (0, cellHeight ⟨⟨[], [], 128, 48⟩, 1, 0⟩ + 0)
    ∧ l_font_getDimensions ⟨⟨[], [], 128, 48⟩, 1, 0⟩ []
        = (0, cellHeight ⟨⟨[], [], 128, 48⟩, 1, 0⟩) :=
  ⟨by decide,
   (getDimensions_empty ⟨⟨[], [], 128, 48⟩, 1, 0⟩ (by decide)).1,
   (getDimensions_empty ⟨⟨[], [], 128, 48⟩, 1, 0⟩ (by decide)).2.1 rfl⟩

/-- C16 (as stated, refuted): with a 128 × 48 atlas and zero spacing, a = "A\\0"
and b = "BBB": getDimensions(a ++ "\\n" ++ b) is (8, 3), the measure of "A", while
max(width(a), width(b)) = 24 and height(a) + height(b) = 6; and with charSpacing
1073741816 (advance 2^30 ≥ 0), a = "A" and b = "BB": the joined text and b
have width -2147483648, the `int` value of 2 × 2^30, and a has width 2^30, so
the joined width is not max(width(a), width(b)). -/
theorem getDimensions_append_newline_nul :
    ((0 : Int) ≤ cellWidth ⟨⟨[], [], 128, 48⟩, 0, 0⟩ + 0
      ∧ l_font_getDimensions ⟨⟨[], [], 128, 48⟩, 0, 0⟩ ([65, 0] ++ [10] ++ [66, 66, 66])
          = (8, 3)
      ∧ (max (l_font_getDimensions ⟨⟨[], [], 128, 48⟩, 0, 0⟩ [65, 0]).1
            (l_font_getDimensions ⟨⟨[], [], 128, 48⟩, 0, 0⟩ [66, 66, 66]).1,
         (l_font_getDimensions ⟨⟨[], [], 128, 48⟩, 0, 0⟩ [65, 0]).2
            + (l_font_getDimensions ⟨⟨[], [], 128, 48⟩, 0, 0⟩ [66, 66, 66]).2) = (24, 6))
    ∧ ((0 : Int) ≤ cellWidth ⟨⟨[], [], 128, 48⟩, 1073741816, 0⟩ + 1073741816
      ∧ (∀ c ∈ ([65] : List Int), c ≠ 0)
      ∧ (l_font_getDimensions ⟨⟨[], [], 128, 48⟩, 1073741816, 0⟩
          ([65] ++ [10] ++ [66, 66])).1 = -2147483648
      ∧ max (l_font_getDimensions ⟨⟨[], [], 128, 48⟩, 1073741816, 0⟩ [65]).1
            (l_font_getDimensions ⟨⟨[], [], 128, 48⟩, 1073741816, 0⟩ [66, 66]).1
          = 1073741824) := by
  decide

/-- C16 (amended): for every font with image.width/16 + charSpacing ≥ 0, every
NUL-free text a and every text b such that the joined text a ++ "\\n" ++ b is
shorter than 2^31 - 1 bytes and its exact size (maxLineCharCount × (cellWidth +
charSpacing) by lineCount × (cellHeight + lineSpacing)) lies in the range of
`int`: getDimensions(a ++ "\\n" ++ b) has width = max(width(a), width(b)) and
height = height(a) + height(b); appending a trailing newline to a adds exactly
one line height and leaves the width unchanged. -/
theorem getDimensions_append_newline (self : font_t)
    (hw : 0 ≤ cellWidth self + self.charSpacing) (a b : List Int)
    (ha : ∀ c ∈ a, c ≠ 0)
    (hlen : (cstr (a ++ [10] ++ b)).length < 2147483647)
    (hW : inInt ((maxLineCharCount (cstr (a ++ [10] ++ b)) : Int)
      * (cellWidth self + self.charSpacing)))
    (hH : inInt ((lineCount (cstr (a ++ [10] ++ b)) : Int)
      * (cellHeight self + self.lineSpacing))) :
    l_font_getDimensions self (a ++ [10] ++ b)
        = (max (l_font_getDimensions self a).1 (l_font_getDimensions self b).1,
           (l_font_getDimensions self a).2 + (l_font_getDimensions self b).2)
    ∧ l_font_getDimensions self (a ++ [10])
        = ((l_font_getDimensions self a).1,
           (l_font_getDimensions self a).2 + (cellHeight self + self.lineSpacing)) := by
  have e1 : a ++ [10] ++ b = a ++ 10 :: b := by simp
  have e2 : a ++ [10] = a ++ 10 :: [] := rfl
  have hexact := l_font_getDimensions_exact self (a ++ [10] ++ b) hlen hW hH
  rw [e1] at hlen hW hH hexact ⊢
  rw [cstr_append_newline a b ha] at hlen hW hH hexact
  rw [maxLineCharCount_append_newline] at hW hexact
  rw [lineCount_append_newline] at hH hexact
  have hla : (cstr a).length < 2147483647 := by
    rw [cstr_of_nulfree a ha]
    simp only [List.length_append, List.length_cons] at hlen
    omega
  have hlb : (cstr b).length < 2147483647 := by
    simp only [List.length_append, List.length_cons] at hlen
    omega
  have hl1 : (cstr (a ++ 10 :: [])).length < 2147483647 := by
    rw [cstr_append_newline a [] ha, cstr_nil]
    simp only [List.length_append, List.length_cons, List.length_nil] at hlen ⊢
    omega
  have hLb : 1 ≤ lineCount (cstr b) := by unfold lineCount; omega
  have nMa : (0 : Int) ≤ (maxLineCharCount a : Int) := Int.natCast_nonneg _
  have nMb : (0 : Int) ≤ (maxLineCharCount (cstr b) : Int) := Int.natCast_nonneg _
  have nLa : (0 : Int) ≤ (lineCount a : Int) := Int.natCast_nonneg _
  have nLb : (0 : Int) ≤ (lineCount (cstr b) : Int) := Int.natCast_nonneg _
  have lMa : (maxLineCharCount a : Int)
      ≤ ((max (maxLineCharCount a) (maxLineCharCount (cstr b)) : Nat) : Int) :=
    Int.ofNat_le.mpr (le_max_left _ _)
  have lMb : (maxLineCharCount (cstr b) : Int)
      ≤ ((max (maxLineCharCount a) (maxLineCharCount (cstr b)) : Nat) : Int) :=
    Int.ofNat_le.mpr (le_max_right _ _)
  have lLa : (lineCount a : Int) ≤ ((lineCount a + lineCount (cstr b) : Nat) : Int) :=
    Int.ofNat_le.mpr (Nat.le_add_right _ _)
  have lLb : (lineCount (cstr b) : Int) ≤ ((lineCount a + lineCount (cstr b) : Nat) : Int) :=
    Int.ofNat_le.mpr (Nat.le_add_left _ _)
  have lLa1 : ((lineCount a + 1 : Nat) : Int)
      ≤ ((lineCount a + lineCount (cstr b) : Nat) : Int) :=
    Int.ofNat_le.mpr (Nat.add_le_add_left hLb _)
  have xa := l_font_getDimensions_exact self a hla
    (by rw [cstr_of_nulfree a ha]; exact inInt_mul_of_le _ _ _ nMa lMa hW)
    (by rw [cstr_of_nulfree a ha]; exact inInt_mul_of_le _ _ _ nLa lLa hH)
  rw [cstr_of_nulfree a ha] at xa
  have xb := l_font_getDimensions_exact self b hlb
    (inInt_mul_of_le _ _ _ nMb lMb hW) (inInt_mul_of_le _ _ _ nLb lLb hH)
  constructor
  · rw [hexact, xa, xb]
    simp only [Prod.mk.injEq]
    constructor
    · rw [Nat.cast_max, max_mul_of_nonneg _ _ hw]
    · push_cast
      ring
  · rw [e2, l_font_getDimensions_closed self _ hl1, cstr_append_newline a [] ha, cstr_nil,
      maxLineCharCount_append_newline, lineCount_append_newline, xa]
    have m0 : maxLineCharCount [] = 0 := rfl
    have l0 : lineCount [] = 1 := rfl
    rw [m0, l0, Nat.max_zero]
    have h2 := inInt_mul_of_le _ _ (cellHeight self + self.lineSpacing)
      (Int.natCast_nonneg (lineCount a + 1)) lLa1 hH
    rw [wrap32_of_inInt _ (inInt_mul_of_le _ _ _ nMa lMa hW), wrap32_of_inInt _ h2]
    simp only [Prod.mk.injEq, true_and]
    push_cast
    ring

/-- C16, instance: a 128 × 48 atlas, charSpacing -1, lineSpacing 2, a = "AB",
b = "CDE". -/
theorem getDimensions_append_newline_witness :
    (0 : Int) ≤ cellWidth ⟨⟨[], [], 128, 48⟩, -1, 2⟩ + (-1)
    ∧ (∀ c ∈ ([65, 66] : List Int), c ≠ 0)
    ∧ (cstr ([65, 66] ++ [10] ++ [67, 68, 69])).length < 2147483647
    ∧ inInt ((maxLineCharCount (cstr ([65, 66] ++ [10] ++ [67, 68, 69])) : Int)
        * (cellWidth ⟨⟨[], [], 128, 48⟩, -1, 2⟩ + -1))
    ∧ inInt ((lineCount (cstr ([65, 66] ++ [10] ++ [67, 68, 69])) : Int)
        * (cellHeight ⟨⟨[], [], 128, 48⟩, -1, 2⟩ + 2))
    ∧ l_font_getDimensions ⟨⟨[], [], 128, 48⟩, -1, 2⟩ ([65, 66] ++ [10] ++ [67, 68, 69])
        = (max (l_font_getDimensions ⟨⟨[], [], 128, 48⟩, -1, 2⟩ [65, 66]).1
             (l_font_getDimensions ⟨⟨[], [], 128, 48⟩, -1, 2⟩ [67, 68, 69]).1,
           (l_font_getDimensions ⟨⟨[], [], 128, 48⟩, -1, 2⟩ [65, 66]).2
             + (l_font_getDimensions ⟨⟨[], [], 128, 48⟩, -1, 2⟩ [67, 68, 69]).2)
    ∧ l_font_getDimensions ⟨⟨[], [], 128, 48⟩, -1, 2⟩ ([65, 66] ++ [10])
        = ((l_font_getDimensions ⟨⟨[], [], 128, 48⟩, -1, 2⟩ [65, 66]).1,
           (l_font_getDimensions ⟨⟨[], [], 128, 48⟩, -1, 2⟩ [65, 66]).2
             + (cellHeight ⟨⟨[], [], 128, 48⟩, -1, 2⟩ + 2)) :=
  ⟨by decide, by decide, by decide, by decide, by decide,
   getDimensions_append_newline ⟨⟨[], [], 128, 48⟩, -1, 2⟩ (by decide) [65, 66] [67, 68, 69]
     (by decide) (by decide) (by decide) (by decide)⟩

/-- C17 (as stated, refuted): the one-byte string "\\0" consists of one
non-newline byte, and with a 128 × 48 atlas and zero spacing getWidth of it is
0 while getWidth() without a text is 8; and with charSpacing 2147483647
getWidth() without a text is -2147483641, the `int` value of 8 + 2147483647 =
2147483655. -/
theorem getWidth_nul_byte :
    ((0 : Int) ≠ 10
      ∧ l_font_getWidth ⟨⟨[], [], 128, 48⟩, 0, 0⟩ (some [0]) = 0
      ∧ l_font_getWidth ⟨⟨[], [], 128, 48⟩, 0, 0⟩ none = 8)
    ∧ (l_font_getWidth ⟨⟨[], [], 128, 48⟩, 2147483647, 0⟩ none = -2147483641
      ∧ cellWidth ⟨⟨[], [], 128, 48⟩, 2147483647, 0⟩ + 2147483647 = 2147483655) := by
  decide

/-- C17 (amended): for every font whose advances image.width/16 + charSpacing and
image.height/16 + lineSpacing lie in the range of `int`, getWidth() without a
text returns image.width/16 + charSpacing, which equals getWidth(s) for every
text s of one byte that is neither a newline nor NUL; getHeight() without a
text returns image.height/16 + lineSpacing, which equals getHeight(s) for every
text s without a newline, the empty text included. -/
theorem measure_without_text (self : font_t) (c : Int) (hc0 : c ≠ 0) (hc10 : c ≠ 10)
    (s : List Int) (hs : ∀ d ∈ s, d ≠ 10)
    (hW : inInt (cellWidth self + self.charSpacing))
    (hH : inInt (cellHeight self + self.lineSpacing)) :
    l_font_getWidth self none = cellWidth self + self.charSpacing
    ∧ l_font_getWidth self (some [c]) = l_font_getWidth self none
    ∧ l_font_getHeight self none = cellHeight self + self.lineSpacing
    ∧ l_font_getHeight self (some s) = l_font_getHeight self none
    ∧ l_font_getHeight self (some []) = l_font_getHeight self none := by
  have hcw := cellPlusSpacing_of_inInt (cellWidth self) self.charSpacing hW
  have hch := cellPlusSpacing_of_inInt (cellHeight self) self.lineSpacing hH
  have w1 : wrap32 (0 + 1) = 1 := by decide
  have g1 : ((1 : Int) > 0) := by decide
  simp only [cellWidth, cellHeight] at hcw hch hW hH ⊢
  refine ⟨?_, ?_, ?_, ?_, ?_⟩
  · simp only [l_font_getWidth, hcw]
  · simp only [l_font_getWidth, getWidthLoop, hc0, hc10, if_false, hcw, w1, g1, if_true,
      one_mul, wrap32_of_inInt _ hW]
  · simp only [l_font_getHeight, hch]
  · simp only [l_font_getHeight, getHeightLoop_no_newline s hs, hch, one_mul,
      wrap32_of_inInt _ hH]
  · simp only [l_font_getHeight, getHeightLoop, hch, one_mul, wrap32_of_inInt _ hH]

/-- C17, instance: a 128 × 48 atlas, charSpacing 1, lineSpacing 2, the one-byte
text "A" and the newline-free text "A B". -/
theorem measure_without_text_witness :
    (65 : Int) ≠ 0 ∧ (65 : Int) ≠ 10 ∧ (∀ d ∈ ([65, 32, 66] : List Int), d ≠ 10)
    ∧ inInt (cellWidth ⟨⟨[], [], 128, 48⟩, 1, 2⟩ + 1)
    ∧ inInt (cellHeight ⟨⟨[], [], 128, 48⟩, 1, 2⟩ + 2)
    ∧ l_font_getWidth ⟨⟨[], [], 128, 48⟩, 1, 2⟩ none = cellWidth ⟨⟨[], [], 128, 48⟩, 1, 2⟩ + 1
    ∧ l_font_getWidth ⟨⟨[], [], 128, 48⟩, 1, 2⟩ (some [65])
        = l_font_getWidth ⟨⟨[], [], 128, 48⟩, 1, 2⟩ none
    ∧ l_font_getHeight ⟨⟨[], [], 128, 48⟩, 1, 2⟩ none
        = cellHeight ⟨⟨[], [], 128, 48⟩, 1, 2⟩ + 2
    ∧ l_font_getHeight ⟨⟨[], [], 128, 48⟩, 1, 2⟩ (some [65, 32, 66])
        = l_font_getHeight ⟨⟨[], [], 128, 48⟩, 1, 2⟩ none
    ∧ l_font_getHeight ⟨⟨[], [], 128, 48⟩, 1, 2⟩ (some [])
        = l_font_getHeight ⟨⟨[], [], 128, 48⟩, 1, 2⟩ none :=
  ⟨by decide, by decide, by decide, by decide, by decide,
   measure_without_text ⟨⟨[], [], 128, 48⟩, 1, 2⟩ 65 (by decide) (by decide) [65, 32, 66]
     (by decide) (by decide) (by decide)⟩

end LoveDos
